import Mathlib

/-!
Shallow embedding of the request-canonicalization / signing subsystem, the
table-entity JSON serializer, and the service-error decoders of the Azure
storage client library (package `storage`).

Go strings are modelled as Lean `String` (a list of characters); operations
that Go performs rune-wise (`strings.ToLower`, `strings.TrimSpace`, iteration
of `for _, c := range s`) are modelled character-wise, and operations that Go
performs byte-wise (percent escaping and unescaping in `net/url`) are modelled
on the UTF-8 byte sequences of those characters, so that both agree with the
Go semantics.  All definitions are structurally recursive so that the kernel
can evaluate them on concrete inputs.
-/

/-- Code points Go `unicode.IsSpace` recognises within the Latin-1 range
(the inputs of interest are ASCII). -/
def isGoSpace (c : Char) : Bool :=
  c.toNat = 9 ∨ c.toNat = 10 ∨ c.toNat = 11 ∨ c.toNat = 12 ∨ c.toNat = 13 ∨
  c.toNat = 32 ∨ c.toNat = 133 ∨ c.toNat = 160

/-- Model of Go `strings.ToLower` (ASCII case mapping, which is all the
library's header names use). -/
def goToLower (s : String) : String :=
  ⟨s.data.map Char.toLower⟩

/-- Model of Go `strings.TrimSpace`. -/
def goTrim (s : String) : String :=
  ⟨((s.data.dropWhile isGoSpace).reverse.dropWhile isGoSpace).reverse⟩

/-- Model of Go `strings.HasPrefix`. -/
def strStarts (s pre : String) : Bool :=
  pre.data.isPrefixOf s.data

/-- Model of Go `strings.HasSuffix`. -/
def strEnds (s suffix : String) : Bool :=
  suffix.data.isSuffixOf s.data

/-- Byte-wise (equivalently, code-point-wise) lexicographic strict order on
character lists, the order used by Go `sort.Strings`. -/
def charListLt : List Char → List Char → Bool
  | [], [] => false
  | [], _ :: _ => true
  | _ :: _, [] => false
  | a :: as, b :: bs =>
    if a.toNat < b.toNat then true
    else if b.toNat < a.toNat then false
    else charListLt as bs

/-- Lexicographic strict order on strings (byte-wise, as Go compares). -/
def strLt (a b : String) : Bool :=
  charListLt a.data b.data

/-- Lexicographic reflexive order on strings. -/
def strLe (a b : String) : Bool :=
  !(strLt b a)

/-- Insert a string into a `strLe`-sorted list, keeping it sorted. -/
def insertStr (a : String) : List String → List String
  | [] => [a]
  | b :: l => if strLe a b then a :: b :: l else b :: insertStr a l

/-- Model of Go `sort.Strings`: sorts a list of strings into ascending
byte-wise lexicographic order. -/
def sortStrs (l : List String) : List String :=
  l.foldr insertStr []

/-- Join a list of strings, inserting the separator between entries (this is
exactly what the Go loops building `canonicalHeader` and the string-to-sign
`fmt.Sprintf` patterns produce: no trailing separator). -/
def joinSep (sep : String) : List String → String
  | [] => ""
  | [x] => x
  | x :: y :: xs => x ++ sep ++ joinSep sep (y :: xs)

/-- Association-list model of a Go map: `assocSet` is map assignment
`m[k] = v` (replace the binding if the key exists, else append). -/
def assocSet {α : Type} (m : List (String × α)) (k : String) (v : α) : List (String × α) :=
  if m.any (fun p => p.1 = k) then
    m.map (fun p => if p.1 = k then (k, v) else p)
  else
    m ++ [(k, v)]

/-- Lookup in an association-list map. -/
def assocGet {α : Type} (m : List (String × α)) (k : String) : Option α :=
  (m.find? (fun p => p.1 = k)).map (fun p => p.2)

/-- Go map indexing `m[k]` for a `map[string]string`: the stored value, or the
zero value `""` when the key is absent.  The lookup is exact (case-sensitive),
as in Go. -/
def goMapGet (m : List (String × String)) (k : String) : String :=
  match m.find? (fun p => p.1 = k) with
  | some p => p.2
  | none => ""

/-- UTF-8 encoding of a single character, as the byte sequence Go obtains
from `string(c)`. -/
def utf8Bytes (c : Char) : List Nat :=
  let n := c.toNat
  if n < 128 then [n]
  else if n < 2048 then [192 + n / 64, 128 + n % 64]
  else if n < 65536 then [224 + n / 4096, 128 + (n / 64) % 64, 128 + n % 64]
  else [240 + n / 262144, 128 + (n / 4096) % 64, 128 + (n / 64) % 64, 128 + n % 64]

/-- UTF-8 bytes of a whole string. -/
def strBytes (s : String) : List Nat :=
  (s.data.map utf8Bytes).flatten

/-- Uppercase hexadecimal digit, as `net/url` emits in percent escapes. -/
def hexUpperDigit (n : Nat) : Char :=
  if n < 10 then Char.ofNat (48 + n) else Char.ofNat (55 + n)

/-- Bytes Go `url.QueryEscape` leaves unescaped: ASCII alphanumerics and
`-`, `_`, `.`, `~`. -/
def isUnreservedByte (b : Nat) : Bool :=
  (65 ≤ b ∧ b ≤ 90) ∨ (97 ≤ b ∧ b ≤ 122) ∨ (48 ≤ b ∧ b ≤ 57) ∨
  b = 45 ∨ b = 95 ∨ b = 46 ∨ b = 126

/-- Escape one byte the way Go `url.QueryEscape` does: unreserved bytes pass
through, a space becomes `+`, everything else becomes `%XX`. -/
def queryEscapeByte (b : Nat) : List Char :=
  if isUnreservedByte b then [Char.ofNat b]
  else if b = 32 then ['+']
  else ['%', hexUpperDigit (b / 16), hexUpperDigit (b % 16)]

/-- Model of Go `url.QueryEscape` applied to a byte sequence. -/
def queryEscapeBytes (bs : List Nat) : String :=
  ⟨(bs.map queryEscapeByte).flatten⟩

/-- Model of Go `url.QueryEscape` applied to a string (the string's UTF-8
bytes are escaped byte by byte). -/
def queryEscape (s : String) : String :=
  queryEscapeBytes (strBytes s)

/-- Value of a hexadecimal digit character, `none` for a non-hex character
(Go `unhex` / `ishex`). -/
def hexVal (c : Char) : Option Nat :=
  if 48 ≤ c.toNat ∧ c.toNat ≤ 57 then some (c.toNat - 48)
  else if 97 ≤ c.toNat ∧ c.toNat ≤ 102 then some (c.toNat - 87)
  else if 65 ≤ c.toNat ∧ c.toNat ≤ 70 then some (c.toNat - 55)
  else none

/-- Model of Go `url.QueryUnescape`: decodes `%XX` escapes and `+` (as space)
into the underlying byte sequence; fails on an invalid or truncated percent
escape. -/
def queryUnescapeChars : List Char → Option (List Nat)
  | [] => some []
  | '%' :: h1 :: h2 :: rest =>
    match hexVal h1, hexVal h2 with
    | some a, some b =>
      match queryUnescapeChars rest with
      | some bs => some ((16 * a + b) :: bs)
      | none => none
    | _, _ => none
  | '%' :: _ => none
  | '+' :: rest =>
    match queryUnescapeChars rest with
    | some bs => some (32 :: bs)
    | none => none
  | c :: rest =>
    match queryUnescapeChars rest with
    | some bs => some (utf8Bytes c ++ bs)
    | none => none

/-- Split a raw query into segments at `&` and `;` separators, mirroring the
`strings.IndexAny(key, "&;")` loop of `net/url.parseQuery`; an empty query
produces no segments, and empty segments are skipped by the caller just as the
Go loop skips them. -/
def querySegsAux (acc : List Char) : List Char → List (List Char)
  | [] => [acc.reverse]
  | c :: rest =>
    if c = '&' ∨ c = ';' then acc.reverse :: querySegsAux [] rest
    else querySegsAux (c :: acc) rest

/-- Segments of a raw query string. -/
def querySegs (cs : List Char) : List (List Char) :=
  match cs with
  | [] => []
  | _ => querySegsAux [] cs

/-- Parsed query values: a list of decoded `(key bytes, value bytes)` pairs in
query order (Go's `url.Values` keeps, for each key, the values in order of
appearance; first-value lookup below matches `Values.Get`). -/
def QueryValues := List (List Nat × List Nat)

/-- Model of Go `url.ParseQuery`.  Each segment is cut at the first `=`; key
and value are percent-unescaped; any unescape failure makes the whole parse
fail (the Go function returns the error alongside the partially-built map, and
its only caller in this package bails out on any error). -/
def parseQuery (q : String) : Except String (List (List Nat × List Nat)) :=
  let step := fun (st : List (List Nat × List Nat) × Bool) (seg : List Char) =>
    if seg.isEmpty then st
    else
      let k := seg.takeWhile (fun c => c ≠ '=')
      let v := (seg.dropWhile (fun c => c ≠ '=')).drop 1
      match queryUnescapeChars k, queryUnescapeChars v with
      | some kb, some vb => (st.1 ++ [(kb, vb)], st.2)
      | _, _ => (st.1, true)
  let r := (querySegs q.data).foldl step ([], false)
  if r.2 then .error ("invalid URL escape") else .ok r.1

/-- Model of Go `url.Values.Get`: the first value stored for the key, or the
empty string (empty byte sequence) when the key is absent. -/
def valuesGetFirst (vals : List (List Nat × List Nat)) (k : List Nat) : List Nat :=
  match vals.find? (fun p => p.1 = k) with
  | some p => p.2
  | none => []

/-- Resource URL as the signer sees it: `url.URL.Path` (already
percent-decoded by `url.Parse`) and `url.URL.RawQuery`. -/
structure GoURL where
  path : String
  rawQuery : String

/-- The `baseSigner` struct: it carries the storage account name. -/
structure baseSigner where
  accountName : String

/-- The `cm` map built by the loop of `baseSigner.canonicalHeader`: every
header whose trimmed lowercased name starts with `x-ms-` is written into the
map under that trimmed lowercased name.  The input Go map is modelled as an
association list (Go map iteration order is arbitrary; every theorem below
is stated so as not to depend on the chosen order). -/
def xmsStep (m : List (String × String)) (kv : String × String) : List (String × String) :=
  let headerName := goTrim (goToLower kv.1)
  if strStarts headerName ("x-ms-") then assocSet m headerName kv.2 else m

/-- The loop of `baseSigner.canonicalHeader` over the input headers. -/
def xmsHeaderMap (headers : List (String × String)) : List (String × String) :=
  headers.foldl xmsStep []

/-- Model of `baseSigner.canonicalHeader`: collect the `x-ms-` headers into a
map, then emit `name:value` lines for the sorted key list, separated by
newlines with no trailing newline; the empty map yields the empty string. -/
def baseSigner.canonicalHeader (_b : baseSigner) (headers : List (String × String)) : String :=
  let cm := xmsHeaderMap headers
  if cm.isEmpty then ""
  else
    let keys := sortStrs (cm.map Prod.fst)
    joinSep ("\n") (keys.map (fun key => key ++ (":") ++ goMapGet cm key))

/-- Model of `baseSigner.encodeComponents`: every character of the path that
is an ASCII letter, an ASCII digit, or one of `/`, `,`, `$`, `=` passes
through; every other character is passed to `url.QueryEscape` (note that
`QueryEscape` itself leaves `-`, `_`, `.`, `~` unescaped and turns a space
into `+`, so those five characters are not percent-escaped despite the
function's comment). -/
def baseSigner.encodeComponents (_b : baseSigner) (path : String) : String :=
  String.join (path.data.map (fun c =>
    if (97 ≤ c.toNat ∧ c.toNat ≤ 122) ∨ (65 ≤ c.toNat ∧ c.toNat ≤ 90) ∨
       (48 ≤ c.toNat ∧ c.toNat ≤ 57) ∨ c = '/' ∨ c = ',' ∨ c = '$' ∨ c = '=' then
      String.singleton c
    else
      queryEscapeBytes (utf8Bytes c)))

/-- Model of `baseSigner.canonicalResource`: `/` + account name + encoded
path; the query string is parsed, and when it carries a `comp` parameter with
a nonempty (first) value, `?comp=<re-encoded value>` is appended (this is
`url.Values.Encode` of a single-key `Values`); a query parse error aborts. -/
def baseSigner.canonicalResource (b : baseSigner) (u : GoURL) : Except String String :=
  let cr := "/" ++ b.accountName ++ b.encodeComponents u.path
  match parseQuery u.rawQuery with
  | .error e => .error ("canonicalResource URL parsing error: " ++ e)
  | .ok params =>
    let comp := valuesGetFirst params (strBytes ("comp"))
    if comp ≠ [] then .ok (cr ++ "?comp=" ++ queryEscapeBytes comp)
    else .ok cr

/-- The `blobQueueSigner` struct embeds `baseSigner`. -/
structure blobQueueSigner where
  base : baseSigner

/-- Model of `blobQueueSigner.canonicalizedString`: the six-field blob/queue
string-to-sign `VERB\nContent-MD5\nContent-Type\nDate\n<canonical
header>\n<canonical resource>`, where the three header values are exact Go
map lookups (missing keys contribute the zero value `""`). -/
def blobQueueSigner.canonicalizedString (s : blobQueueSigner) (verb : String)
    (headers : List (String × String)) (u : GoURL) : Except String String :=
  let cHeader := s.base.canonicalHeader headers
  match s.base.canonicalResource u with
  | .error e => .error e
  | .ok cRes =>
    .ok (joinSep ("\n")
      [verb, goMapGet headers ("Content-MD5"), goMapGet headers ("Content-Type"),
       goMapGet headers ("Date"), cHeader, cRes])

/-- The `tableSigner` struct embeds `baseSigner`. -/
structure tableSigner where
  base : baseSigner

/-- Model of `tableSigner.canonicalizedString`: the two-field table
string-to-sign `<x-ms-date header>\n<canonical resource>`; the verb and all
other headers are ignored, and the `x-ms-date` lookup is an exact Go map
index. -/
def tableSigner.canonicalizedString (s : tableSigner) (_verb : String)
    (headers : List (String × String)) (u : GoURL) : Except String String :=
  match s.base.canonicalResource u with
  | .error e => .error e
  | .ok cRes =>
    .ok (joinSep ("\n") [goMapGet headers ("x-ms-date"), cRes])

/-- Decidable equality for `Except`, used to evaluate the embedded fallible
functions on concrete inputs. -/
instance {ε α : Type} [DecidableEq ε] [DecidableEq α] : DecidableEq (Except ε α) := fun a b =>
  match a, b with
  | .ok x, .ok y =>
    if h : x = y then isTrue (by rw [h]) else isFalse (by intro hh; cases hh; exact h rfl)
  | .error x, .error y =>
    if h : x = y then isTrue (by rw [h]) else isFalse (by intro hh; cases hh; exact h rfl)
  | .ok _, .error _ => isFalse (by intro hh; cases hh)
  | .error _, .ok _ => isFalse (by intro hh; cases hh)

/-- Scalar JSON values, the shapes a flat table-entity object may hold (the
library documents that entity values must be JSON literals, not objects or
arrays). -/
inductive JVal where
  | jstr (s : String)
  | jint (n : Int)
  | jbool (b : Bool)
  | jnull
  deriving DecidableEq

/-- Lowercase hexadecimal digit, used in `\u00XX` escapes emitted by
`encoding/json`. -/
def hexLowerDigit (n : Nat) : Char :=
  if n < 10 then Char.ofNat (48 + n) else Char.ofNat (87 + n)

/-- Model of the string escaping `encoding/json` performs (with its default
HTML escaping of `<`, `>`, `&`). -/
def jsonEscapeChar (c : Char) : List Char :=
  if c = Char.ofNat 34 then ['\\', Char.ofNat 34]
  else if c = '\\' then ['\\', '\\']
  else if c = '\n' then ['\\', 'n']
  else if c = '\r' then ['\\', 'r']
  else if c = '\t' then ['\\', 't']
  else if c.toNat < 32 then
    ['\\', 'u', '0', '0', hexLowerDigit (c.toNat / 16), hexLowerDigit (c.toNat % 16)]
  else if c = '<' then ['\\', 'u', '0', '0', '3', 'c']
  else if c = '>' then ['\\', 'u', '0', '0', '3', 'e']
  else if c = '&' then ['\\', 'u', '0', '0', '2', '6']
  else if c.toNat = 8232 then ['\\', 'u', '2', '0', '2', '8']
  else if c.toNat = 8233 then ['\\', 'u', '2', '0', '2', '9']
  else [c]

/-- A JSON string literal: `"` + escaped characters + `"`. -/
def jsonQuote (s : String) : String :=
  ⟨Char.ofNat 34 :: (s.data.map jsonEscapeChar).flatten ++ [Char.ofNat 34]⟩

/-- Decimal digits of a natural number (fuel-driven, structurally
recursive). -/
def natDigits (fuel n : Nat) : List Char :=
  match fuel with
  | 0 => []
  | fuel + 1 =>
    if n < 10 then [Char.ofNat (48 + n)]
    else natDigits fuel (n / 10) ++ [Char.ofNat (48 + n % 10)]

/-- Decimal rendering of a natural number. -/
def natStr (n : Nat) : String :=
  ⟨natDigits (n + 1) n⟩

/-- Decimal rendering of an integer, as `encoding/json` renders Go integer
values. -/
def intStr : Int → String
  | .ofNat n => natStr n
  | .negSucc n => "-" ++ natStr (n + 1)

/-- Rendering of one scalar JSON value, as `encoding/json` emits it. -/
def renderJVal : JVal → String
  | .jstr s => jsonQuote s
  | .jint n => intStr n
  | .jbool true => "true"
  | .jbool false => "false"
  | .jnull => "null"

/-- Lookup in a JSON object map, with `null` standing in for an absent key
(only ever used at keys known to be present). -/
def lookupJVal (m : List (String × JVal)) (k : String) : JVal :=
  match assocGet m k with
  | some v => v
  | none => .jnull

/-- Model of Go `json.MarshalIndent(m, "", "\t")` for a flat
`map[string]interface{}`: keys are sorted byte-wise lexicographically
(`encoding/json` sorts map keys), each entry is placed on its own line
indented by one tab, with `": "` between key and value, and the object is
wrapped in braces; the empty map renders as `\x7b\x7d`. -/
def goMarshalIndentMap (m : List (String × JVal)) : String :=
  if m.isEmpty then "\x7b\x7d"
  else
    "\x7b\n" ++
      joinSep (",\n")
        ((sortStrs (m.map Prod.fst).dedup).map
          (fun k => "\t" ++ jsonQuote k ++ (": ") ++ renderJVal (lookupJVal m k))) ++
      "\n\x7d"

/-- One field of a Go struct, as reflection sees it: declared name, raw
`json` tag (empty string when absent), raw `odata.type` tag (empty string
when absent), and the field's value.  Fields are assumed exported, names
valid, which is what the library's entity structs look like. -/
structure GoStructField where
  fname : String
  jsonTag : String
  odataTag : String
  fval : JVal
  deriving DecidableEq

/-- Model of `StructTableEntity.jsonName`: the part of the `json` tag before
the first comma when the tag is nonempty, else the declared field name. -/
def jsonName (f : GoStructField) : String :=
  if f.jsonTag ≠ "" then ⟨f.jsonTag.data.takeWhile (fun c => c ≠ ',')⟩
  else f.fname

/-- The name under which `encoding/json` serializes a field: the tag's name
component when nonempty, else the declared name (tag `-` handling is done by
the caller). -/
def goName (f : GoStructField) : String :=
  let t : String := ⟨f.jsonTag.data.takeWhile (fun c => c ≠ ',')⟩
  if t ≠ "" then t else f.fname

/-- The name component of the `json` tag (empty when the tag has no name). -/
def tagNamePart (f : GoStructField) : String :=
  ⟨f.jsonTag.data.takeWhile (fun c => c ≠ ',')⟩

/-- Comma-separated components of a tag. -/
def splitCommaAux (acc : List Char) : List Char → List (List Char)
  | [] => [acc.reverse]
  | c :: rest =>
    if c = ',' then acc.reverse :: splitCommaAux [] rest
    else splitCommaAux (c :: acc) rest

/-- Whether the `json` tag carries the `omitempty` option. -/
def hasOmitEmpty (f : GoStructField) : Bool :=
  ((splitCommaAux [] f.jsonTag.data).drop 1).any (fun cs => cs = ("omitempty").data)

/-- Go `encoding/json` emptiness test for the scalar values of the model. -/
def isEmptyJVal : JVal → Bool
  | .jstr s => s = ""
  | .jint n => n = 0
  | .jbool b => b = false
  | .jnull => true

/-- The key/value pairs `json.Marshal` emits for a struct, in declaration
order: fields tagged exactly `-` are dropped; among several fields resolving
to the same name, a single field survives only when it is the only one, or
the only tagged one (Go's conflict rule); `omitempty` fields with empty
values are skipped. -/
def structMarshalPairs (fields : List GoStructField) : List (String × JVal) :=
  let cand := fields.filter (fun f => f.jsonTag ≠ "-")
  let keep := cand.filter (fun f =>
    let nm := goName f
    let same := cand.filter (fun g => goName g = nm)
    same.length = 1 ∨
      ((same.filter (fun g => tagNamePart g ≠ "")).length = 1 ∧ tagNamePart f ≠ ""))
  keep.filterMap (fun f =>
    if hasOmitEmpty f ∧ isEmptyJVal f.fval then none
    else some (goName f, f.fval))

/-- Steps 1-4 of `StructTableEntity.jsonMarshal`: marshal the struct, read it
back into a generic map (later duplicate keys overwrite earlier ones, as
`json.Unmarshal` does), collect the `odata.type` sidecar entries keyed by
`jsonName(f) + "@odata.type"` into the `extras` map (a later field with the
same resolved name overwrites an earlier one, as the Go map write does), and
write the extras into the map. -/
def entityM0 (fields : List GoStructField) : List (String × JVal) :=
  (structMarshalPairs fields).foldl (fun m p => assocSet m p.1 p.2) []

/-- The `extras` map of step 3: for every field with a nonempty `odata.type`
tag, the key `jsonName(f) + "@odata.type"` is assigned the tag value (a later
field writing the same key overwrites an earlier one, as the Go map write
does). -/
def entityExtras (fields : List GoStructField) : List (String × JVal) :=
  fields.foldl
    (fun ex f =>
      if f.odataTag ≠ "" then
        assocSet ex (jsonName f ++ ("@odata.type")) (JVal.jstr f.odataTag)
      else ex)
    []

/-- The sidecar entries in field order, one per annotated field (used to
reason about `entityExtras`). -/
def sidecarPairs (fields : List GoStructField) : List (String × JVal) :=
  fields.filterMap (fun f =>
    if f.odataTag ≠ "" then some (jsonName f ++ ("@odata.type"), JVal.jstr f.odataTag)
    else none)

def mergedEntityMap (fields : List GoStructField) : List (String × JVal) :=
  (entityExtras fields).foldl (fun m p => assocSet m p.1 p.2) (entityM0 fields)

/-- Go values as the serializer's type switch sees them: a struct (a list of
fields) or any non-struct kind. -/
inductive GoVal where
  | goStruct (fields : List GoStructField)
  | goOther
  deriving DecidableEq

/-- The `StructTableEntity` wrapper: `Val interface{}` is `none` when the
interface is nil. -/
structure StructTableEntity where
  val : Option GoVal
  deriving DecidableEq

/-- Model of `StructTableEntity.jsonMarshal`: nil and non-struct inputs fail
with an error and produce no bytes; a struct is serialized, augmented with
the `odata.type` sidecar keys, and re-serialized with sorted keys and 1-tab
indentation. -/
def StructTableEntity.jsonMarshal (s : StructTableEntity) : Except String String :=
  match s.val with
  | none => .error ("storage: struct value for given StructTableEntity is nil")
  | some .goOther => .error ("storage: value given to StructTableEntity is not a struct")
  | some (.goStruct fields) => .ok (goMarshalIndentMap (mergedEntityMap fields))

/-- The `MapTableEntity` variant: a free-form flat map of scalar values. -/
def MapTableEntity := List (String × JVal)

/-- Model of `MapTableEntity.jsonMarshal`: `json.MarshalIndent(m, "", "\t")`
(which cannot fail on the scalar values the model admits). -/
def MapTableEntity.jsonMarshal (m : MapTableEntity) : Except String String :=
  .ok (goMarshalIndentMap m)

/-- JSON syntax trees, the target of the model of `encoding/json` parsing. -/
inductive Json where
  | jnull
  | jbool (b : Bool)
  | jnum (raw : String)
  | jstr (s : String)
  | jarr (xs : List Json)
  | jobj (fields : List (String × Json))

/-- JSON insignificant whitespace (space, tab, newline, carriage return). -/
def skipJsonWs (cs : List Char) : List Char :=
  cs.dropWhile (fun c => c = ' ' ∨ c = '\t' ∨ c = '\n' ∨ c = '\r')

/-- Four hexadecimal digits of a `\uXXXX` escape. -/
def parseHex4 : List Char → Option (Nat × List Char)
  | a :: b :: c :: d :: rest =>
    match hexVal a, hexVal b, hexVal c, hexVal d with
    | some w, some x, some y, some z => some (4096 * w + 256 * x + 16 * y + z, rest)
    | _, _, _, _ => none
  | _ => none

/-- A code point produced by `\uXXXX` decoding, with the replacement
character for an unpaired surrogate half, as `encoding/json` substitutes. -/
def charOfCode (n : Nat) : Char :=
  if (55296 ≤ n ∧ n ≤ 57343) ∨ 1114112 ≤ n then Char.ofNat 65533
  else Char.ofNat n

/-- Body of a JSON string literal after the opening quote: ordinary
characters, the standard escapes, `\uXXXX` escapes with surrogate-pair
combination (an invalid surrogate becomes U+FFFD, as `encoding/json`
replaces it); an unescaped control character or a truncated literal is a
syntax error. -/
def parseJStr (fuel : Nat) (acc : List Char) (cs : List Char) : Option (String × List Char) :=
  match fuel with
  | 0 => none
  | fuel + 1 =>
    match cs with
    | [] => none
    | c :: rest =>
      if c = Char.ofNat 34 then some (⟨acc.reverse⟩, rest)
      else if c = '\\' then
        match rest with
        | [] => none
        | e :: rest2 =>
          if e = Char.ofNat 34 then parseJStr fuel (Char.ofNat 34 :: acc) rest2
          else if e = '\\' then parseJStr fuel ('\\' :: acc) rest2
          else if e = '/' then parseJStr fuel ('/' :: acc) rest2
          else if e = 'b' then parseJStr fuel (Char.ofNat 8 :: acc) rest2
          else if e = 'f' then parseJStr fuel (Char.ofNat 12 :: acc) rest2
          else if e = 'n' then parseJStr fuel ('\n' :: acc) rest2
          else if e = 'r' then parseJStr fuel ('\r' :: acc) rest2
          else if e = 't' then parseJStr fuel ('\t' :: acc) rest2
          else if e = 'u' then
            match parseHex4 rest2 with
            | none => none
            | some (n, rest3) =>
              if 55296 ≤ n ∧ n ≤ 56319 then
                match rest3 with
                | '\\' :: 'u' :: rest4 =>
                  match parseHex4 rest4 with
                  | some (m, rest5) =>
                    if 56320 ≤ m ∧ m ≤ 57343 then
                      parseJStr fuel
                        (charOfCode (65536 + 1024 * (n - 55296) + (m - 56320)) :: acc) rest5
                    else parseJStr fuel (charOfCode 65533 :: acc) rest3
                  | none => parseJStr fuel (charOfCode 65533 :: acc) rest3
                | _ => parseJStr fuel (charOfCode 65533 :: acc) rest3
              else parseJStr fuel (charOfCode n :: acc) rest3
          else none
      else if c.toNat < 32 then none
      else parseJStr fuel (c :: acc) rest

/-- ASCII digit test. -/
def isDigitCh (c : Char) : Bool :=
  48 ≤ c.toNat ∧ c.toNat ≤ 57

/-- A JSON number literal (RFC 8259 grammar, as the `encoding/json` scanner
accepts): optional minus, integer part without leading zeros, optional
fraction, optional exponent; the raw text is kept. -/
def parseJNum (cs : List Char) : Option (String × List Char) :=
  let signAndRest : List Char × List Char :=
    match cs with
    | '-' :: rest => (['-'], rest)
    | _ => ([], cs)
  let sgn := signAndRest.1
  let afterSign := signAndRest.2
  let intRes : Option (List Char × List Char) :=
    match afterSign with
    | '0' :: rest => some (['0'], rest)
    | c :: rest =>
      if isDigitCh c ∧ c ≠ '0' then
        some (c :: rest.takeWhile isDigitCh, rest.dropWhile isDigitCh)
      else none
    | [] => none
  match intRes with
  | none => none
  | some (ip, afterInt) =>
    let fracRes : Option (List Char × List Char) :=
      match afterInt with
      | '.' :: rest =>
        if (rest.takeWhile isDigitCh).isEmpty then none
        else some ('.' :: rest.takeWhile isDigitCh, rest.dropWhile isDigitCh)
      | _ => some ([], afterInt)
    match fracRes with
    | none => none
    | some (fp, afterFrac) =>
      let expRes : Option (List Char × List Char) :=
        match afterFrac with
        | c :: rest =>
          if c = 'e' ∨ c = 'E' then
            let srest : List Char × List Char :=
              match rest with
              | '+' :: r2 => (['+'], r2)
              | '-' :: r2 => (['-'], r2)
              | _ => ([], rest)
            if (srest.2.takeWhile isDigitCh).isEmpty then none
            else some (c :: srest.1 ++ srest.2.takeWhile isDigitCh, srest.2.dropWhile isDigitCh)
          else some ([], afterFrac)
        | [] => some ([], afterFrac)
      match expRes with
      | none => none
      | some (ep, rest) => some (⟨sgn ++ ip ++ fp ++ ep⟩, rest)

mutual

/-- A JSON value (by the first significant character), as the `encoding/json`
scanner classifies it. -/
def parseJsonVal : Nat → List Char → Option (Json × List Char)
  | 0, _ => none
  | fuel + 1, cs =>
    match skipJsonWs cs with
    | [] => none
    | c :: rest =>
      if c = Char.ofNat 34 then
        match parseJStr (rest.length + 1) [] rest with
        | some (s, r) => some (.jstr s, r)
        | none => none
      else if c = Char.ofNat 123 then parseJsonObj fuel rest
      else if c = '[' then parseJsonArr fuel rest
      else if c = 't' then
        match rest with
        | 'r' :: 'u' :: 'e' :: r => some (.jbool true, r)
        | _ => none
      else if c = 'f' then
        match rest with
        | 'a' :: 'l' :: 's' :: 'e' :: r => some (.jbool false, r)
        | _ => none
      else if c = 'n' then
        match rest with
        | 'u' :: 'l' :: 'l' :: r => some (.jnull, r)
        | _ => none
      else
        match parseJNum (c :: rest) with
        | some (s, r) => some (.jnum s, r)
        | none => none

/-- Members of a JSON object, after the opening brace. -/
def parseJsonObj : Nat → List Char → Option (Json × List Char)
  | 0, _ => none
  | fuel + 1, cs =>
    match skipJsonWs cs with
    | c :: rest =>
      if c = Char.ofNat 125 then some (.jobj [], rest)
      else parseJsonMembers fuel [] (c :: rest)
    | [] => none

/-- The comma-separated `"key": value` members of an object. -/
def parseJsonMembers : Nat → List (String × Json) → List Char → Option (Json × List Char)
  | 0, _, _ => none
  | fuel + 1, acc, cs =>
    match skipJsonWs cs with
    | c :: rest =>
      if c = Char.ofNat 34 then
        match parseJStr (rest.length + 1) [] rest with
        | none => none
        | some (k, r1) =>
          match skipJsonWs r1 with
          | ':' :: r2 =>
            match parseJsonVal fuel r2 with
            | none => none
            | some (v, r3) =>
              match skipJsonWs r3 with
              | ',' :: r4 => parseJsonMembers fuel (acc ++ [(k, v)]) r4
              | c2 :: r4 =>
                if c2 = Char.ofNat 125 then some (.jobj (acc ++ [(k, v)]), r4)
                else none
              | [] => none
          | _ => none
      else none
    | [] => none

/-- Elements of a JSON array, after the opening bracket. -/
def parseJsonArr : Nat → List Char → Option (Json × List Char)
  | 0, _ => none
  | fuel + 1, cs =>
    match skipJsonWs cs with
    | ']' :: rest => some (.jarr [], rest)
    | other => parseJsonElems fuel [] other

/-- The comma-separated elements of an array. -/
def parseJsonElems : Nat → List Json → List Char → Option (Json × List Char)
  | 0, _, _ => none
  | fuel + 1, acc, cs =>
    match parseJsonVal fuel cs with
    | none => none
    | some (v, r1) =>
      match skipJsonWs r1 with
      | ',' :: r2 => parseJsonElems fuel (acc ++ [v]) r2
      | ']' :: r2 => some (.jarr (acc ++ [v]), r2)
      | _ => none

end

/-- Model of the `encoding/json` syntax check plus parse: one JSON value,
optionally surrounded by whitespace, with nothing else trailing. -/
def parseJson (s : String) : Option Json :=
  match parseJsonVal (2 * s.data.length + 2) s.data with
  | none => none
  | some (v, rest) =>
    if (skipJsonWs rest).isEmpty then some v else none

/-- ASCII case-insensitive string comparison, the fallback `encoding/json`
uses to match object keys to struct fields. -/
def strCiEq (a b : String) : Bool :=
  goToLower a = goToLower b

/-- The `AzureStorageTableServiceError` struct: `code` and `message.lang` /
`message.value` come from the body; `StatusCode` and `RequestID` are tagged
`json:"-"` and filled out-of-band by the decoder. -/
structure AzureStorageTableServiceError where
  code : String
  lang : String
  value : String
  statusCode : Int
  requestID : String
  deriving DecidableEq

/-- Decoding of the inner `message` object (fields `lang` and `value`): keys
are matched case-insensitively, later duplicates overwrite, `null` leaves a
field untouched, a non-string value is a type error. -/
def decodeTableMsg (st : String × String) (fs : List (String × Json)) : Option (String × String) :=
  fs.foldlM
    (fun st kv =>
      if strCiEq kv.1 ("lang") then
        match kv.2 with
        | .jstr s => some (s, st.2)
        | .jnull => some st
        | _ => none
      else if strCiEq kv.1 ("value") then
        match kv.2 with
        | .jstr s => some (st.1, s)
        | .jnull => some st
        | _ => none
      else some st)
    st

/-- Decoding of the promoted `AzureStorageTableServiceError` fields from the
object stored under `odata.error`: `code` must be a string, `message` an
object; unknown keys are ignored; `StatusCode`/`RequestID` are tagged
`json:"-"` and never read from the body. -/
def decodeTableInner (st : String × String × String) (fs : List (String × Json)) :
    Option (String × String × String) :=
  fs.foldlM
    (fun st kv =>
      if strCiEq kv.1 ("code") then
        match kv.2 with
        | .jstr s => some (s, st.2.1, st.2.2)
        | .jnull => some st
        | _ => none
      else if strCiEq kv.1 ("message") then
        match kv.2 with
        | .jobj ms =>
          match decodeTableMsg (st.2.1, st.2.2) ms with
          | some (l, v) => some (st.1, l, v)
          | none => none
        | .jnull => some st
        | _ => none
      else some st)
    st

/-- Model of `json.Unmarshal` into the intermediate `odataErr` struct: the
top level must be an object (or `null`, which leaves the zero value); the
value under the key `odata.error` holds the error fields. -/
def decodeTableErr : Json → Option (String × String × String)
  | .jnull => some ("", "", "")
  | .jobj fs =>
    fs.foldlM
      (fun st kv =>
        if strCiEq kv.1 ("odata.error") then
          match kv.2 with
          | .jobj gs => decodeTableInner st gs
          | .jnull => some st
          | _ => none
        else some st)
      ("", "", "")
  | _ => none

/-- Model of Go `%q` quoting of the raw body, as `fmt.Errorf(... body=%q ...)`
renders it into the deserialization error message. -/
def goQuoteChar (c : Char) : List Char :=
  if c = Char.ofNat 34 then ['\\', Char.ofNat 34]
  else if c = '\\' then ['\\', '\\']
  else if c = '\n' then ['\\', 'n']
  else if c = '\r' then ['\\', 'r']
  else if c = '\t' then ['\\', 't']
  else if c.toNat < 32 then
    ['\\', 'x', hexLowerDigit (c.toNat / 16), hexLowerDigit (c.toNat % 16)]
  else [c]

/-- Go `%q` of a string. -/
def goQuote (s : String) : String :=
  ⟨Char.ofNat 34 :: (s.data.map goQuoteChar).flatten ++ [Char.ofNat 34]⟩

/-- The message of the error both decoders build on a deserialization
failure: it wraps the raw body (the underlying decoder error text, which Go
interpolates before the body, is abstracted to the fixed text before the
colon). -/
def deserializeErrMsg (body : String) : String :=
  "storage: error deserializing error" ++ "\nbody=" ++ goQuote body

/-- Model of `tableErrFromJSON`: parse the body, decode the `odata.error`
fields, and attach the HTTP status code and request id out-of-band; any parse
or decode failure yields the deserialization error wrapping the raw body. -/
def tableErrFromJSON (body : String) (statusCode : Int) (requestID : String) :
    Except String AzureStorageTableServiceError :=
  match parseJson body with
  | none => .error (deserializeErrMsg body)
  | some j =>
    match decodeTableErr j with
    | none => .error (deserializeErrMsg body)
    | some (c, l, v) =>
      .ok { code := c, lang := l, value := v, statusCode := statusCode, requestID := requestID }

/-- XML trees: elements (attributes are parsed and discarded, since the
target struct binds no attributes) and character data. -/
inductive Xml where
  | elem (tag : String) (children : List Xml)
  | text (s : String)

/-- Characters allowed in an XML name, enough for the error schema. -/
def isXmlNameCh (c : Char) : Bool :=
  (65 ≤ c.toNat ∧ c.toNat ≤ 90) ∨ (97 ≤ c.toNat ∧ c.toNat ≤ 122) ∨
  (48 ≤ c.toNat ∧ c.toNat ≤ 57) ∨ c = '-' ∨ c = '_' ∨ c = ':' ∨ c = '.'

/-- XML whitespace. -/
def skipXmlWs (cs : List Char) : List Char :=
  cs.dropWhile (fun c => c = ' ' ∨ c = '\t' ∨ c = '\n' ∨ c = '\r')

/-- The five predefined XML entities, decoded as `encoding/xml` decodes
character data. -/
def xmlEntity : List Char → Option (Char × List Char)
  | 'a' :: 'm' :: 'p' :: ';' :: rest => some ('&', rest)
  | 'l' :: 't' :: ';' :: rest => some ('<', rest)
  | 'g' :: 't' :: ';' :: rest => some ('>', rest)
  | 'q' :: 'u' :: 'o' :: 't' :: ';' :: rest => some (Char.ofNat 34, rest)
  | 'a' :: 'p' :: 'o' :: 's' :: ';' :: rest => some (Char.ofNat 39, rest)
  | _ => none

/-- A run of character data up to the next markup, with entity decoding. -/
def parseXmlText (fuel : Nat) (acc : List Char) (cs : List Char) : Option (String × List Char) :=
  match fuel with
  | 0 => none
  | fuel + 1 =>
    match cs with
    | [] => some (⟨acc.reverse⟩, [])
    | c :: rest =>
      if c = '<' then some (⟨acc.reverse⟩, c :: rest)
      else if c = '&' then
        match xmlEntity rest with
        | some (e, rest2) => parseXmlText fuel (e :: acc) rest2
        | none => none
      else parseXmlText fuel (c :: acc) rest

/-- Attributes of a start tag, parsed and discarded; returns the remainder
after the closing `>` together with a flag telling whether the tag was
self-closing (`/>`). -/
def parseXmlAttrs (fuel : Nat) (cs : List Char) : Option (Bool × List Char) :=
  match fuel with
  | 0 => none
  | fuel + 1 =>
    match skipXmlWs cs with
    | '>' :: rest => some (false, rest)
    | '/' :: '>' :: rest => some (true, rest)
    | c :: rest =>
      if isXmlNameCh c then
        let rest1 := rest.dropWhile isXmlNameCh
        match skipXmlWs rest1 with
        | '=' :: rest2 =>
          match skipXmlWs rest2 with
          | q :: rest3 =>
            if q = Char.ofNat 34 ∨ q = Char.ofNat 39 then
              let v := rest3.takeWhile (fun d => d ≠ q)
              match rest3.drop v.length with
              | _ :: rest4 => parseXmlAttrs fuel rest4
              | [] => none
            else none
          | [] => none
        | _ => none
      else none
    | [] => none

mutual

/-- One XML element: start tag (attributes discarded), content, matching end
tag; or a self-closing tag. -/
def parseXmlElem : Nat → List Char → Option (Xml × List Char)
  | 0, _ => none
  | fuel + 1, cs =>
    match cs with
    | '<' :: rest =>
      let nameCs := rest.takeWhile isXmlNameCh
      if nameCs.isEmpty then none
      else
        let rest1 := rest.dropWhile isXmlNameCh
        match parseXmlAttrs (rest1.length + 1) rest1 with
        | none => none
        | some (true, rest2) => some (.elem ⟨nameCs⟩ [], rest2)
        | some (false, rest2) =>
          match parseXmlContent fuel [] rest2 with
          | none => none
          | some (children, rest3) =>
            match rest3 with
            | '<' :: '/' :: rest4 =>
              if nameCs.isPrefixOf rest4 then
                match skipXmlWs (rest4.drop nameCs.length) with
                | '>' :: rest5 => some (.elem ⟨nameCs⟩ children, rest5)
                | _ => none
              else none
            | _ => none
    | _ => none

/-- Element content: interleaved character data and child elements, up to the
closing tag. -/
def parseXmlContent : Nat → List Xml → List Char → Option (List Xml × List Char)
  | 0, _, _ => none
  | fuel + 1, acc, cs =>
    match parseXmlText (cs.length + 1) [] cs with
    | none => none
    | some (t, rest) =>
      let acc2 := if t = "" then acc else acc ++ [Xml.text t]
      match rest with
      | '<' :: '/' :: _ => some (acc2, rest)
      | '<' :: _ =>
        match parseXmlElem fuel rest with
        | none => none
        | some (child, rest2) => parseXmlContent fuel (acc2 ++ [child]) rest2
      | [] => some (acc2, [])
      | _ => none

end

/-- Model of the `encoding/xml` document parse the decoder performs: an
optional `<?xml ...?>` declaration, then one root element; surrounding
whitespace is allowed. -/
def parseXml (s : String) : Option Xml :=
  let cs := skipXmlWs s.data
  let afterDecl : Option (List Char) :=
    match cs with
    | '<' :: '?' :: rest =>
      let rec dropToDeclEnd : List Char → Option (List Char)
        | [] => none
        | '?' :: '>' :: r => some r
        | _ :: r => dropToDeclEnd r
      dropToDeclEnd rest
    | _ => some cs
  match afterDecl with
  | none => none
  | some cs2 =>
    match parseXmlElem (cs2.length + 1) (skipXmlWs cs2) with
    | none => none
    | some (x, rest) =>
      if (skipXmlWs rest).isEmpty then some x else none

/-- The `AzureStorageServiceError` struct for the blob/queue XML protocol;
`StatusCode` and `RequestID` are not part of the XML schema and are attached
out-of-band. -/
structure AzureStorageServiceError where
  code : String
  message : String
  authenticationErrorDetail : String
  queryParameterName : String
  queryParameterValue : String
  reason : String
  statusCode : Int
  requestID : String
  deriving DecidableEq

/-- Character data directly under an element, as `encoding/xml` accumulates
it into a string field (child elements contribute nothing). -/
def xmlTextContent (children : List Xml) : String :=
  String.join (children.map (fun x =>
    match x with
    | .text s => s
    | .elem _ _ => ""))

/-- Model of `xml.Unmarshal` into `AzureStorageServiceError`: the root
element may have any name; each child element whose name matches one of the
six schema fields sets that field from its character data (a repeated
element overwrites); unknown children and stray character data are
ignored. -/
def decodeServiceErrXml (x : Xml) : AzureStorageServiceError :=
  match x with
  | .text _ =>
    { code := "", message := "", authenticationErrorDetail := "", queryParameterName := "",
      queryParameterValue := "", reason := "", statusCode := 0, requestID := "" }
  | .elem _ children =>
    children.foldl
      (fun e child =>
        match child with
        | .text _ => e
        | .elem tag cs =>
          if tag = "Code" then { e with code := xmlTextContent cs }
          else if tag = "Message" then { e with message := xmlTextContent cs }
          else if tag = "AuthenticationErrorDetail" then
            { e with authenticationErrorDetail := xmlTextContent cs }
          else if tag = "QueryParameterName" then { e with queryParameterName := xmlTextContent cs }
          else if tag = "QueryParameterValue" then { e with queryParameterValue := xmlTextContent cs }
          else if tag = "Reason" then { e with reason := xmlTextContent cs }
          else e)
      { code := "", message := "", authenticationErrorDetail := "", queryParameterName := "",
        queryParameterValue := "", reason := "", statusCode := 0, requestID := "" }

/-- Model of `serviceErrFromXML`: parse the XML body, decode the schema
fields, and attach the HTTP status code and request id out-of-band; a parse
failure yields the deserialization error wrapping the raw body. -/
def serviceErrFromXML (body : String) (statusCode : Int) (requestID : String) :
    Except String AzureStorageServiceError :=
  match parseXml body with
  | none => .error (deserializeErrMsg body)
  | some x =>
    let e := decodeServiceErrXml x
    .ok { e with statusCode := statusCode, requestID := requestID }

/-! ### Properties of the lexicographic order and of `sortStrs` -/

theorem charToNat_inj {a b : Char} (h : a.toNat = b.toNat) : a = b :=
  Char.ext (UInt32.ext h)

theorem charListLt_irrefl : ∀ as, charListLt as as = false := by
  intro as
  induction as with
  | nil => rfl
  | cons a as ih => simp [charListLt, ih]

theorem charListLt_asymm : ∀ as bs, charListLt as bs = true → charListLt bs as = false := by
  intro as
  induction as with
  | nil => intro bs h; cases bs <;> simp [charListLt]
  | cons a as ih =>
    intro bs h
    cases bs with
    | nil => simp [charListLt] at h
    | cons b bs =>
      simp only [charListLt] at h ⊢
      rcases Nat.lt_trichotomy a.toNat b.toNat with hlt | heq | hgt
      · simp [hlt, Nat.lt_asymm hlt]
      · simp only [heq, lt_self_iff_false, if_false] at h ⊢
        exact ih bs h
      · simp [hgt, Nat.lt_asymm hgt] at h

theorem charListLt_connex : ∀ as bs, charListLt as bs = false → charListLt bs as = false → as = bs := by
  intro as
  induction as with
  | nil => intro bs h1 _; cases bs with
    | nil => rfl
    | cons b bs => simp [charListLt] at h1
  | cons a as ih =>
    intro bs h1 h2
    cases bs with
    | nil => simp [charListLt] at h2
    | cons b bs =>
      simp only [charListLt] at h1 h2
      rcases Nat.lt_trichotomy a.toNat b.toNat with hlt | heq | hgt
      · simp [hlt] at h1
      · have hab : a = b := charToNat_inj heq
        subst hab
        simp only [lt_self_iff_false, if_false] at h1 h2
        rw [ih bs h1 h2]
      · simp [hgt] at h2

theorem charListLt_trans : ∀ as bs cs, charListLt as bs = true → charListLt bs cs = true →
    charListLt as cs = true := by
  intro as
  induction as with
  | nil =>
    intro bs cs h1 h2
    cases bs with
    | nil => simp [charListLt] at h1
    | cons b bs =>
      cases cs with
      | nil => simp [charListLt] at h2
      | cons c cs => simp [charListLt]
  | cons a as ih =>
    intro bs cs h1 h2
    cases bs with
    | nil => simp [charListLt] at h1
    | cons b bs =>
      cases cs with
      | nil => simp [charListLt] at h2
      | cons c cs =>
        simp only [charListLt] at h1 h2 ⊢
        rcases Nat.lt_trichotomy a.toNat b.toNat with hab | hab | hab
        · rcases Nat.lt_trichotomy b.toNat c.toNat with hbc | hbc | hbc
          · simp [Nat.lt_trans hab hbc]
          · rw [← hbc]; simp [hab]
          · simp [hbc, Nat.lt_asymm hbc] at h2
        · have hab2 : a = b := charToNat_inj hab
          subst hab2
          simp only [lt_self_iff_false, if_false] at h1
          rcases Nat.lt_trichotomy a.toNat c.toNat with hac | hac | hac
          · simp [hac]
          · have hac2 : a = c := charToNat_inj hac
            subst hac2
            simp only [lt_self_iff_false, if_false] at h2 ⊢
            exact ih bs cs h1 h2
          · simp [hac, Nat.lt_asymm hac] at h2
        · simp [hab, Nat.lt_asymm hab] at h1

theorem strLt_asymm {a b : String} (h : strLt a b = true) : strLt b a = false :=
  charListLt_asymm _ _ h

theorem strLt_connex {a b : String} (h1 : strLt a b = false) (h2 : strLt b a = false) : a = b :=
  String.ext (charListLt_connex _ _ h1 h2)

theorem strLt_trans {a b c : String} (h1 : strLt a b = true) (h2 : strLt b c = true) :
    strLt a c = true :=
  charListLt_trans _ _ _ h1 h2

theorem strLe_iff {a b : String} : strLe a b = true ↔ strLt b a = false := by
  unfold strLe
  cases h : strLt b a <;> simp

theorem strLe_total (a b : String) : strLe a b = true ∨ strLe b a = true := by
  rcases h : strLt b a with _ | _
  · left; exact strLe_iff.mpr h
  · right; exact strLe_iff.mpr (strLt_asymm h)

theorem strLe_trans {a b c : String} (h1 : strLe a b = true) (h2 : strLe b c = true) :
    strLe a c = true := by
  rw [strLe_iff] at h1 h2 ⊢
  cases hca : strLt c a
  · rfl
  · exfalso
    cases hbc : strLt b c
    · have hbceq : b = c := strLt_connex hbc h2
      rw [← hbceq] at hca
      rw [hca] at h1
      exact Bool.noConfusion h1
    · have hba := strLt_trans hbc hca
      rw [hba] at h1
      exact Bool.noConfusion h1

theorem strLe_antisymm {a b : String} (h1 : strLe a b = true) (h2 : strLe b a = true) : a = b :=
  strLt_connex (strLe_iff.mp h2) (strLe_iff.mp h1)

theorem strLt_of_le_of_ne {a b : String} (h1 : strLe a b = true) (h2 : a ≠ b) :
    strLt a b = true := by
  rcases hab : strLt a b with _ | _
  · exact absurd (strLt_connex hab (strLe_iff.mp h1)) h2
  · rfl

theorem strLe_of_not_le {a b : String} (h : ¬ strLe a b = true) : strLe b a = true :=
  (strLe_total a b).resolve_left h

instance : IsAntisymm String (fun a b => strLe a b = true) :=
  ⟨fun _ _ => strLe_antisymm⟩

theorem insertStr_perm (a : String) (l : List String) : (insertStr a l).Perm (a :: l) := by
  induction l with
  | nil => exact List.Perm.refl _
  | cons b l ih =>
    unfold insertStr
    split
    · exact List.Perm.refl _
    · exact (ih.cons b).trans (List.Perm.swap a b l)

theorem mem_insertStr {a x : String} {l : List String} :
    x ∈ insertStr a l ↔ x = a ∨ x ∈ l := by
  rw [(insertStr_perm a l).mem_iff]
  simp

theorem pairwise_le_insertStr {a : String} {l : List String}
    (h : List.Pairwise (fun x y => strLe x y = true) l) :
    List.Pairwise (fun x y => strLe x y = true) (insertStr a l) := by
  induction l with
  | nil => simp [insertStr]
  | cons b l ih =>
    unfold insertStr
    split
    · case isTrue hab =>
      refine List.Pairwise.cons ?_ h
      intro x hx
      rcases hx with _ | hx
      · exact hab
      · exact strLe_trans hab (List.rel_of_pairwise_cons h (by assumption))
    · case isFalse hab =>
      have hba : strLe b a = true := strLe_of_not_le hab
      refine List.Pairwise.cons ?_ (ih h.tail)
      intro x hx
      rcases mem_insertStr.mp hx with hx | hx
      · subst hx; exact hba
      · exact List.rel_of_pairwise_cons h hx

theorem sortStrs_perm (l : List String) : (sortStrs l).Perm l := by
  induction l with
  | nil => exact List.Perm.refl _
  | cons x l ih =>
    have : sortStrs (x :: l) = insertStr x (sortStrs l) := rfl
    rw [this]
    exact (insertStr_perm x (sortStrs l)).trans (ih.cons x)

theorem sortStrs_sorted (l : List String) :
    List.Pairwise (fun x y => strLe x y = true) (sortStrs l) := by
  induction l with
  | nil => simp [sortStrs]
  | cons x l ih => exact pairwise_le_insertStr ih

theorem mem_sortStrs {a : String} {l : List String} : a ∈ sortStrs l ↔ a ∈ l :=
  (sortStrs_perm l).mem_iff

theorem sortStrs_nodup {l : List String} (h : l.Nodup) : (sortStrs l).Nodup :=
  (sortStrs_perm l).symm.nodup h

theorem sortStrs_pairwise_lt {l : List String} (h : l.Nodup) :
    List.Pairwise (fun x y => strLt x y = true) (sortStrs l) :=
  ((sortStrs_sorted l).and (sortStrs_nodup h)).imp
    (fun hp => strLt_of_le_of_ne hp.1 hp.2)

theorem sortStrs_eq_of_mem_iff {l1 l2 : List String} (h1 : l1.Nodup) (h2 : l2.Nodup)
    (hm : ∀ a, a ∈ l1 ↔ a ∈ l2) : sortStrs l1 = sortStrs l2 := by
  have hperm : (sortStrs l1).Perm (sortStrs l2) :=
    (List.perm_ext_iff_of_nodup (sortStrs_nodup h1) (sortStrs_nodup h2)).mpr
      (fun a => by rw [mem_sortStrs, mem_sortStrs]; exact hm a)
  exact List.eq_of_perm_of_sorted hperm (sortStrs_sorted l1) (sortStrs_sorted l2)

/-! ### Properties of the association-list map operations -/

theorem keys_assocSet {α : Type} (m : List (String × α)) (k : String) (v : α) :
    (assocSet m k v).map Prod.fst =
      if m.any (fun p => p.1 = k) then m.map Prod.fst else m.map Prod.fst ++ [k] := by
  by_cases h : m.any (fun p => p.1 = k) = true
  · simp only [assocSet, h, if_true, List.map_map]
    apply List.map_congr_left
    intro p _
    by_cases hp : p.1 = k <;> simp [hp]
  · simp only [assocSet, h, if_false]
    simp

theorem mem_keys_assocSet {α : Type} {m : List (String × α)} {k a : String} {v : α} :
    a ∈ (assocSet m k v).map Prod.fst ↔ a = k ∨ a ∈ m.map Prod.fst := by
  by_cases h : m.any (fun p => p.1 = k) = true
  · have hk : (assocSet m k v).map Prod.fst = m.map Prod.fst := by
      rw [keys_assocSet]; simp [h]
    rw [hk]
    constructor
    · intro ha; exact Or.inr ha
    · intro ha
      rcases ha with ha | ha
      · subst ha
        rcases List.any_eq_true.mp h with ⟨p, hp, hpk⟩
        exact List.mem_map.mpr ⟨p, hp, by simpa using hpk⟩
      · exact ha
  · have hk : (assocSet m k v).map Prod.fst = m.map Prod.fst ++ [k] := by
      rw [keys_assocSet]; simp [h]
    rw [hk, List.mem_append, List.mem_singleton]
    tauto

theorem nodup_keys_assocSet {α : Type} {m : List (String × α)} {k : String} {v : α}
    (hn : (m.map Prod.fst).Nodup) : ((assocSet m k v).map Prod.fst).Nodup := by
  by_cases h : m.any (fun p => p.1 = k) = true
  · have hk : (assocSet m k v).map Prod.fst = m.map Prod.fst := by
      rw [keys_assocSet]; simp [h]
    rw [hk]; exact hn
  · have hk : (assocSet m k v).map Prod.fst = m.map Prod.fst ++ [k] := by
      rw [keys_assocSet]; simp [h]
    rw [hk, List.nodup_append]
    refine ⟨hn, List.nodup_singleton k, ?_⟩
    intro a ha hak
    rw [List.mem_singleton] at hak
    subst hak
    rcases List.mem_map.mp ha with ⟨p, hp, hpk⟩
    exact absurd (List.any_eq_true.mpr ⟨p, hp, by simpa using hpk⟩) h

theorem mem_assocSet {α : Type} {m : List (String × α)} {k : String} {v : α} {p : String × α}
    (hp : p ∈ assocSet m k v) : p = (k, v) ∨ p ∈ m := by
  unfold assocSet at hp
  by_cases h : m.any (fun q => q.1 = k) = true
  · simp only [h, if_true] at hp
    rcases List.mem_map.mp hp with ⟨q, hq, hfq⟩
    by_cases hqk : q.1 = k
    · simp only [hqk, if_true] at hfq
      exact Or.inl hfq.symm
    · simp only [hqk, if_false] at hfq
      exact Or.inr (hfq ▸ hq)
  · rw [if_neg h, List.mem_append, List.mem_singleton] at hp
    tauto

theorem assocGet_assocSet_self {α : Type} (m : List (String × α)) (k : String) (v : α) :
    assocGet (assocSet m k v) k = some v := by
  unfold assocSet assocGet
  by_cases h : m.any (fun p => p.1 = k) = true
  · simp only [h, if_true]
    induction m with
    | nil => simp at h
    | cons p rest ih =>
      by_cases hp : p.1 = k
      · rw [List.map_cons]
        rw [List.find?_cons_of_pos _ (by simp [hp])]
        simp [hp]
      · have h2 : rest.any (fun q => q.1 = k) = true := by
          rcases List.any_eq_true.mp h with ⟨q, hq, hqk⟩
          rcases List.mem_cons.mp hq with hq2 | hq2
          · exact absurd (by simpa [hq2] using hqk) hp
          · exact List.any_eq_true.mpr ⟨q, hq2, hqk⟩
        rw [List.map_cons]
        rw [List.find?_cons_of_neg _ (by simp [hp])]
        exact ih h2
  · simp only [h, if_false]
    have hnone : m.find? (fun p => p.1 = k) = none := by
      rw [List.find?_eq_none]
      intro x hx hxk
      exact absurd (List.any_eq_true.mpr ⟨x, hx, hxk⟩) h
    simp [List.find?_append, hnone, List.find?]

theorem assocGet_assocSet_ne {α : Type} (m : List (String × α)) {k k2 : String} (v : α)
    (hne : k2 ≠ k) : assocGet (assocSet m k v) k2 = assocGet m k2 := by
  unfold assocSet assocGet
  by_cases h : m.any (fun p => p.1 = k) = true
  · simp only [h, if_true]
    rw [List.find?_map]
    have hpred : ((fun p => decide (p.1 = k2)) ∘ (fun p : String × α => if p.1 = k then (k, v) else p)) =
        (fun p : String × α => decide (p.1 = k2)) := by
      funext p
      by_cases hpk : p.1 = k
      · simp [Function.comp, hpk]
      · simp [Function.comp, hpk]
    rw [hpred]
    cases hf : List.find? (fun p : String × α => decide (p.1 = k2)) m with
    | none => simp
    | some q =>
      have hq : q.1 = k2 := by simpa using List.find?_some hf
      have hqk : ¬ q.1 = k := by rw [hq]; exact hne
      simp [hqk]
  · rw [if_neg h]
    rw [List.find?_append]
    have hsingle : List.find? (fun p => p.1 = k2) [(k, v)] = none := by
      simp [List.find?, Ne.symm hne]
    rw [hsingle]
    simp

theorem assocGet_eq_none_iff {α : Type} {m : List (String × α)} {k : String} :
    assocGet m k = none ↔ k ∉ m.map Prod.fst := by
  unfold assocGet
  rw [Option.map_eq_none', List.find?_eq_none]
  constructor
  · intro h hk
    rcases List.mem_map.mp hk with ⟨p, hp, hpk⟩
    exact absurd (by simpa using hpk) (by simpa using h p hp)
  · intro h p hp hpk
    exact h (List.mem_map.mpr ⟨p, hp, by simpa using hpk⟩)

theorem assocGet_mem {α : Type} {m : List (String × α)} {k : String} {v : α}
    (h : assocGet m k = some v) : (k, v) ∈ m := by
  unfold assocGet at h
  rcases Option.map_eq_some'.mp h with ⟨p, hp, hpv⟩
  have hmem := List.mem_of_find?_eq_some hp
  have hk : p.1 = k := by simpa using List.find?_some hp
  have : p = (k, v) := by
    cases p
    simp only at hk hpv
    simp [hk, hpv]
  exact this ▸ hmem

theorem find?_of_nodup_keys {α : Type} {m : List (String × α)} {k : String} {p : String × α}
    (hn0 : (m.map Prod.fst).Nodup) (hp : p ∈ m) (hk : p.1 = k) :
    m.find? (fun q => q.1 = k) = some p := by
  induction m with
  | nil => cases hp
  | cons q rest ih =>
    rcases List.mem_cons.mp hp with hq | hq
    · subst hq
      rw [List.find?_cons_of_pos _ (by simp [hk])]
    · by_cases hqk : q.1 = k
      · exfalso
        rw [List.map_cons, List.nodup_cons] at hn0
        apply hn0.1
        rw [hqk, ← hk]
        exact List.mem_map.mpr ⟨p, hq, rfl⟩
      · rw [List.find?_cons_of_neg _ (by simp [hqk])]
        rw [List.map_cons, List.nodup_cons] at hn0
        exact ih hn0.2 hq

theorem nodup_keys_foldl_assocSet {α : Type} (ps : List (String × α))
    (init : List (String × α)) (hn : (init.map Prod.fst).Nodup) :
    (((ps.foldl (fun m p => assocSet m p.1 p.2) init)).map Prod.fst).Nodup := by
  induction ps generalizing init with
  | nil => exact hn
  | cons p ps ih =>
    rw [List.foldl_cons]
    exact ih (assocSet init p.1 p.2) (nodup_keys_assocSet hn)

theorem assocGet_foldl_assocSet {α : Type} (ps : List (String × α))
    (init : List (String × α)) (hn : (init.map Prod.fst).Nodup) (k : String) :
    assocGet (ps.foldl (fun m p => assocSet m p.1 p.2) init) k =
      match ps.reverse.find? (fun p => p.1 = k) with
      | some p => some p.2
      | none => assocGet init k := by
  induction ps generalizing init with
  | nil => simp
  | cons p ps ih =>
    rw [List.foldl_cons]
    rw [ih (assocSet init p.1 p.2) (nodup_keys_assocSet hn)]
    rw [List.reverse_cons, List.find?_append]
    cases hf : List.find? (fun q => q.1 = k) ps.reverse with
    | some q => simp
    | none =>
      simp only [Option.none_or]
      by_cases hpk : p.1 = k
      · have hp1 : List.find? (fun q => q.1 = k) [p] = some p :=
          List.find?_cons_of_pos _ (by simp [hpk])
        rw [hp1]
        subst hpk
        exact assocGet_assocSet_self init p.1 p.2
      · have hp1 : List.find? (fun q => q.1 = k) [p] = none := by
          simp [List.find?, hpk]
        rw [hp1]
        exact assocGet_assocSet_ne init p.2 (fun h => hpk h.symm)

theorem mem_keys_xmsFold (headers : List (String × String)) (m : List (String × String))
    (a : String) :
    a ∈ (headers.foldl xmsStep m).map Prod.fst ↔
      a ∈ m.map Prod.fst ∨
        ∃ kv ∈ headers, goTrim (goToLower kv.1) = a ∧ strStarts a ("x-ms-") = true := by
  induction headers generalizing m with
  | nil => simp
  | cons kv headers ih =>
    rw [List.foldl_cons, ih]
    by_cases hs : strStarts (goTrim (goToLower kv.1)) ("x-ms-") = true
    · have hstep : xmsStep m kv = assocSet m (goTrim (goToLower kv.1)) kv.2 := by
        simp [xmsStep, hs]
      rw [hstep]
      constructor
      · intro h
        rcases h with h | h
        · rcases mem_keys_assocSet.mp h with h2 | h2
          · exact Or.inr ⟨kv, List.mem_cons_self _ _, h2.symm, h2 ▸ hs⟩
          · exact Or.inl h2
        · rcases h with ⟨kv2, hkv2, hname, hpre⟩
          exact Or.inr ⟨kv2, List.mem_cons_of_mem _ hkv2, hname, hpre⟩
      · intro h
        rcases h with h | h
        · exact Or.inl (mem_keys_assocSet.mpr (Or.inr h))
        · rcases h with ⟨kv2, hkv2, hname, hpre⟩
          rcases List.mem_cons.mp hkv2 with hkv3 | hkv3
          · subst hkv3
            exact Or.inl (mem_keys_assocSet.mpr (Or.inl hname.symm))
          · exact Or.inr ⟨kv2, hkv3, hname, hpre⟩
    · have hstep : xmsStep m kv = m := by
        simp [xmsStep, hs]
      rw [hstep]
      constructor
      · intro h
        rcases h with h | h
        · exact Or.inl h
        · rcases h with ⟨kv2, hkv2, hname, hpre⟩
          exact Or.inr ⟨kv2, List.mem_cons_of_mem _ hkv2, hname, hpre⟩
      · intro h
        rcases h with h | h
        · exact Or.inl h
        · rcases h with ⟨kv2, hkv2, hname, hpre⟩
          rcases List.mem_cons.mp hkv2 with hkv3 | hkv3
          · subst hkv3
            exact absurd (hname ▸ hpre) hs
          · exact Or.inr ⟨kv2, hkv3, hname, hpre⟩

theorem nodup_keys_xmsFold (headers : List (String × String)) (m : List (String × String))
    (hn : (m.map Prod.fst).Nodup) : ((headers.foldl xmsStep m).map Prod.fst).Nodup := by
  induction headers generalizing m with
  | nil => exact hn
  | cons kv headers ih =>
    rw [List.foldl_cons]
    apply ih
    by_cases hs : strStarts (goTrim (goToLower kv.1)) ("x-ms-") = true
    · have hstep : xmsStep m kv = assocSet m (goTrim (goToLower kv.1)) kv.2 := by
        simp [xmsStep, hs]
      rw [hstep]
      exact nodup_keys_assocSet hn
    · have hstep : xmsStep m kv = m := by
        simp [xmsStep, hs]
      rw [hstep]
      exact hn

theorem mem_entries_xmsFold (headers : List (String × String)) (m : List (String × String))
    (p : String × String) (hp : p ∈ headers.foldl xmsStep m) :
    p ∈ m ∨ (strStarts p.1 ("x-ms-") = true ∧
      ∃ kv ∈ headers, goTrim (goToLower kv.1) = p.1 ∧ kv.2 = p.2) := by
  induction headers generalizing m with
  | nil => exact Or.inl hp
  | cons kv headers ih =>
    rw [List.foldl_cons] at hp
    rcases ih (xmsStep m kv) hp with h | h
    · by_cases hs : strStarts (goTrim (goToLower kv.1)) ("x-ms-") = true
      · have hstep : xmsStep m kv = assocSet m (goTrim (goToLower kv.1)) kv.2 := by
          simp [xmsStep, hs]
        rw [hstep] at h
        rcases mem_assocSet h with h2 | h2
        · subst h2
          exact Or.inr ⟨hs, kv, List.mem_cons_self _ _, rfl, rfl⟩
        · exact Or.inl h2
      · have hstep : xmsStep m kv = m := by
          simp [xmsStep, hs]
        rw [hstep] at h
        exact Or.inl h
    · rcases h with ⟨hpre, kv2, hkv2, hname, hval⟩
      exact Or.inr ⟨hpre, kv2, List.mem_cons_of_mem _ hkv2, hname, hval⟩

theorem joinSep_ne_empty_of_head_ne (sep : String) (x : String) (xs : List String)
    (hx : x.data ≠ []) : joinSep sep (x :: xs) ≠ "" := by
  cases xs with
  | nil =>
    intro h
    apply hx
    have : x = "" := h
    rw [this]
  | cons y ys =>
    intro h
    apply hx
    have hj : joinSep sep (x :: y :: ys) = x ++ sep ++ joinSep sep (y :: ys) := rfl
    rw [hj] at h
    have hd : x.data ++ sep.data ++ (joinSep sep (y :: ys)).data = [] := by
      rw [← String.data_append, ← String.data_append, h]
    rcases List.append_eq_nil.mp hd with ⟨hd2, _⟩
    rcases List.append_eq_nil.mp hd2 with ⟨hd3, _⟩
    exact hd3

theorem goMapGet_eq_assocGet (m : List (String × String)) (k : String) :
    goMapGet m k = (assocGet m k).getD "" := by
  unfold goMapGet assocGet
  cases hf : m.find? (fun p => p.1 = k) <;> simp [hf]

/-- Unfolding of `canonicalHeader` through the named loop map. -/
theorem canonicalHeader_eq (b : baseSigner) (headers : List (String × String)) :
    b.canonicalHeader headers =
      if (xmsHeaderMap headers).isEmpty then ""
      else joinSep ("\n") ((sortStrs ((xmsHeaderMap headers).map Prod.fst)).map
        (fun key => key ++ (":") ++ goMapGet (xmsHeaderMap headers) key)) := rfl

/-! ### Claim C1 -/

/-- C1, counterexample: the claim says `canonicalHeader` keeps exactly the
headers whose lowercased name begins with `x-ms-`; but the code also trims
whitespace, so the header name `" x-ms-a"` (leading space), whose lowercased
form does not begin with `x-ms-`, is nevertheless kept (under its trimmed
name).  At this input the claim predicts the empty string, while the code
returns `"x-ms-a:v"`. -/
theorem claim_C1_counterexample :
    baseSigner.canonicalHeader ⟨"foo"⟩ [(" x-ms-a", "v")] = "x-ms-a:v" ∧
    strStarts (goToLower (" x-ms-a")) ("x-ms-") = false := by
  constructor
  · rfl
  · rfl

/-- C1 (amended): for every header map, `canonicalHeader` keeps exactly the
headers whose whitespace-trimmed lowercased name begins with `x-ms-`, emits
them under those trimmed lowercased names with their values verbatim, sorts
the kept names in strictly ascending lexicographic order, and joins them as
`name:value` lines separated by newlines with no trailing newline; when no
header matches, the result is the empty string. -/
theorem claim_C1_canonicalHeader (b : baseSigner) (headers : List (String × String)) :
    (b.canonicalHeader headers = "" ↔
      headers.filter (fun kv => strStarts (goTrim (goToLower kv.1)) ("x-ms-")) = []) ∧
    ∃ lines : List (String × String),
      b.canonicalHeader headers =
        joinSep ("\n") (lines.map (fun p => p.1 ++ (":") ++ p.2)) ∧
      List.Pairwise (fun p q => strLt p.1 q.1 = true) lines ∧
      (∀ p ∈ lines, strStarts p.1 ("x-ms-") = true ∧
        ∃ kv ∈ headers, goTrim (goToLower kv.1) = p.1 ∧ kv.2 = p.2) ∧
      (∀ kv ∈ headers, strStarts (goTrim (goToLower kv.1)) ("x-ms-") = true →
        goTrim (goToLower kv.1) ∈ lines.map Prod.fst) := by
  constructor
  · constructor
    · intro h
      rw [List.filter_eq_nil_iff]
      intro kv hkv hmatch
      have ha : goTrim (goToLower kv.1) ∈ (xmsHeaderMap headers).map Prod.fst :=
        (mem_keys_xmsFold headers [] _).mpr (Or.inr ⟨kv, hkv, rfl, hmatch⟩)
      have hcmne : ¬ (xmsHeaderMap headers).isEmpty = true := by
        intro he
        rw [List.isEmpty_iff] at he
        rw [he] at ha
        simp at ha
      rw [canonicalHeader_eq, if_neg hcmne] at h
      have hks : goTrim (goToLower kv.1) ∈ sortStrs ((xmsHeaderMap headers).map Prod.fst) :=
        mem_sortStrs.mpr ha
      cases hkeys : sortStrs ((xmsHeaderMap headers).map Prod.fst) with
      | nil => rw [hkeys] at hks; cases hks
      | cons k ks =>
        rw [hkeys, List.map_cons] at h
        refine joinSep_ne_empty_of_head_ne _ _ _ ?_ h
        intro hd
        have : (k ++ (":") ++ goMapGet (xmsHeaderMap headers) k).data =
            k.data ++ (":").data ++ (goMapGet (xmsHeaderMap headers) k).data := by
          rw [String.data_append, String.data_append]
        rw [this] at hd
        rcases List.append_eq_nil.mp hd with ⟨hd2, _⟩
        rcases List.append_eq_nil.mp hd2 with ⟨_, hd3⟩
        exact List.noConfusion hd3
    · intro h
      have hnone : ∀ a, a ∉ (xmsHeaderMap headers).map Prod.fst := by
        intro a ha
        rcases (mem_keys_xmsFold headers [] a).mp ha with h0 | ⟨kv, hkv, hname, hpre⟩
        · simp at h0
        · exact (List.filter_eq_nil_iff.mp h) kv hkv (by rw [hname]; exact hpre)
      have hcm : xmsHeaderMap headers = [] := by
        cases hcm2 : xmsHeaderMap headers with
        | nil => rfl
        | cons p rest =>
          exact absurd (by rw [hcm2]; exact List.mem_map.mpr ⟨p, List.mem_cons_self _ _, rfl⟩)
            (hnone p.1)
      rw [canonicalHeader_eq, hcm]
      rfl
  · by_cases hcm : (xmsHeaderMap headers).isEmpty = true
    · refine ⟨[], ?_, ?_, ?_, ?_⟩
      · rw [canonicalHeader_eq, if_pos hcm]
        rfl
      · simp
      · simp
      · intro kv hkv hpre
        exfalso
        rw [List.isEmpty_iff] at hcm
        have hmem : goTrim (goToLower kv.1) ∈ (xmsHeaderMap headers).map Prod.fst :=
          (mem_keys_xmsFold headers [] (goTrim (goToLower kv.1))).mpr
            (Or.inr ⟨kv, hkv, rfl, hpre⟩)
        rw [hcm] at hmem
        simp at hmem
    · refine ⟨(sortStrs ((xmsHeaderMap headers).map Prod.fst)).map
        (fun k => (k, goMapGet (xmsHeaderMap headers) k)), ?_, ?_, ?_, ?_⟩
      · rw [canonicalHeader_eq, if_neg hcm, List.map_map]
        rfl
      · rw [List.pairwise_map]
        exact sortStrs_pairwise_lt (nodup_keys_xmsFold headers [] (by simp))
      · intro p hp
        rcases List.mem_map.mp hp with ⟨k, hk, hpk⟩
        have hkcm : k ∈ (xmsHeaderMap headers).map Prod.fst := mem_sortStrs.mp hk
        obtain ⟨v, hv⟩ : ∃ v, assocGet (xmsHeaderMap headers) k = some v := by
          cases hg : assocGet (xmsHeaderMap headers) k with
          | none => exact absurd hkcm (assocGet_eq_none_iff.mp hg)
          | some v => exact ⟨v, rfl⟩
        have hentry : (k, v) ∈ xmsHeaderMap headers := assocGet_mem hv
        have hget : goMapGet (xmsHeaderMap headers) k = v := by
          rw [goMapGet_eq_assocGet, hv]
          rfl
        rcases mem_entries_xmsFold headers [] (k, v) hentry with h0 | ⟨hpre, kv, hkv, hname, hval⟩
        · cases h0
        · subst hpk
          exact ⟨hpre, kv, hkv, hname, by simp [hget, hval]⟩
      · intro kv hkv hpre
        rw [List.map_map]
        have hid : (Prod.fst ∘ fun k => (k, goMapGet (xmsHeaderMap headers) k)) = id := rfl
        rw [hid, List.map_id]
        exact mem_sortStrs.mpr ((mem_keys_xmsFold headers [] _).mpr (Or.inr ⟨kv, hkv, rfl, hpre⟩))

/-- C1, witness: the amended theorem applied to the header map of the Go unit
test, whose two `x-ms-` headers come out sorted. -/
theorem claim_C1_witness :
    baseSigner.canonicalHeader ⟨"foo"⟩
      [("x-ms-version", "9999-99-99"), ("x-ms-blob-type", "BlockBlob")] ≠ "" :=
  fun he =>
    (by decide :
      ¬ ([("x-ms-version", "9999-99-99"), ("x-ms-blob-type", "BlockBlob")].filter
          (fun kv => strStarts (goTrim (goToLower kv.1)) ("x-ms-")) = []))
      ((claim_C1_canonicalHeader ⟨"foo"⟩ _).1.mp he)

/-! ### Claim C2 -/

/-- C2: evaluation of `encodeComponents` at the inputs where the code
diverges from its own comment (and from the claim): `url.QueryEscape` leaves
`-`, `_`, `.`, `~` unescaped and maps a space to `+`, so those characters are
not percent-escaped; the claim's concrete example, which uses none of those
characters, does hold. -/
theorem claim_C2_encodeComponents :
    baseSigner.encodeComponents ⟨"foo"⟩ ("-") = "-" ∧
    baseSigner.encodeComponents ⟨"foo"⟩ ("_.~") = "_.~" ∧
    baseSigner.encodeComponents ⟨"foo"⟩ (" ") = "+" ∧
    baseSigner.canonicalResource ⟨"foo"⟩ ⟨"/Table(\x27bar\x27)", ""⟩ =
      .ok ("/foo/Table%28%27bar%27%29") := by
  exact ⟨rfl, rfl, rfl, rfl⟩

/-! ### Claim C3 -/

theorem canonicalResource_ok_eq (b : baseSigner) (u : GoURL)
    (params : List (List Nat × List Nat)) (h : parseQuery u.rawQuery = .ok params) :
    b.canonicalResource u =
      if valuesGetFirst params (strBytes ("comp")) ≠ [] then
        .ok ("/" ++ b.accountName ++ b.encodeComponents u.path ++ "?comp=" ++
          queryEscapeBytes (valuesGetFirst params (strBytes ("comp"))))
      else .ok ("/" ++ b.accountName ++ b.encodeComponents u.path) := by
  unfold baseSigner.canonicalResource
  rw [h]

theorem canonicalResource_error_eq (b : baseSigner) (u : GoURL) (e : String)
    (h : parseQuery u.rawQuery = .error e) :
    b.canonicalResource u = .error ("canonicalResource URL parsing error: " ++ e) := by
  unfold baseSigner.canonicalResource
  rw [h]

theorem strEnds_append (a b : String) : strEnds (a ++ b) b = true := by
  unfold strEnds
  rw [String.data_append, List.isSuffixOf_iff_suffix]
  exact List.suffix_append a.data b.data

/-- C3, counterexample: a query string carrying a `comp` parameter with an
empty value.  The query parses, `comp` is a parameter of the query, yet the
canonical resource carries no `?comp=` suffix, because the code tests
`params.Get("comp") != ""` and so treats an empty value like an absent
parameter. -/
theorem claim_C3_counterexample :
    parseQuery ("comp=") = .ok [(strBytes ("comp"), [])] ∧
    baseSigner.canonicalResource ⟨"foo"⟩ ⟨"/x", "comp="⟩ = .ok ("/foo/x") ∧
    strEnds ("/foo/x") ("?comp=") = false := by
  exact ⟨rfl, rfl, rfl⟩

/-- C3 (amended): for every resource URL whose query string parses, if the
query carries a `comp` parameter whose first value is nonempty, the canonical
resource is the encoded path followed by exactly `?comp=<re-encoded value>`
(every other query parameter is dropped); if there is no `comp` parameter or
its value is empty, the output has no query-string part; and a malformed
query string makes `canonicalResource` fail with a parse error. -/
theorem claim_C3_canonicalResource (b : baseSigner) (u : GoURL) :
    (∀ e, parseQuery u.rawQuery = .error e →
      b.canonicalResource u = .error ("canonicalResource URL parsing error: " ++ e)) ∧
    (∀ params, parseQuery u.rawQuery = .ok params →
      (valuesGetFirst params (strBytes ("comp")) = [] →
        b.canonicalResource u = .ok ("/" ++ b.accountName ++ b.encodeComponents u.path)) ∧
      (∀ v, valuesGetFirst params (strBytes ("comp")) = v → v ≠ [] →
        b.canonicalResource u =
          .ok ("/" ++ b.accountName ++ b.encodeComponents u.path ++
            ("?comp=" ++ queryEscapeBytes v)) ∧
        strEnds ("/" ++ b.accountName ++ b.encodeComponents u.path ++
          ("?comp=" ++ queryEscapeBytes v)) ("?comp=" ++ queryEscapeBytes v) = true)) := by
  constructor
  · intro e he
    exact canonicalResource_error_eq b u e he
  · intro params hp
    constructor
    · intro hemp
      rw [canonicalResource_ok_eq b u params hp]
      simp [hemp]
    · intro v hv hne
      constructor
      · rw [canonicalResource_ok_eq b u params hp]
        rw [hv]
        rw [if_pos hne]
        rw [String.append_assoc]
      · exact strEnds_append _ _

/-- C3, witness: the amended theorem applied to the URL of the Go unit test
`https://foo.blob.core.windows.net/path?a=b&c=d&comp=ok`. -/
theorem claim_C3_witness :
    baseSigner.canonicalResource ⟨"foo"⟩ ⟨"/path", "a=b&c=d&comp=ok"⟩ =
      .ok ("/" ++ "foo" ++ baseSigner.encodeComponents ⟨"foo"⟩ ("/path") ++
        ("?comp=" ++ queryEscapeBytes (strBytes ("ok")))) :=
  (((claim_C3_canonicalResource ⟨"foo"⟩ ⟨"/path", "a=b&c=d&comp=ok"⟩).2
    [(strBytes ("a"), strBytes ("b")), (strBytes ("c"), strBytes ("d")),
      (strBytes ("comp"), strBytes ("ok"))] (by rfl)).2
    (strBytes ("ok")) (by rfl) (by decide)).1

/-! ### Claims C4 and C5 -/

theorem joinSep_pair (sep a b : String) : joinSep sep [a, b] = a ++ sep ++ b := rfl

theorem joinSep_six (sep a b c d e f : String) :
    joinSep sep [a, b, c, d, e, f] =
      a ++ sep ++ b ++ sep ++ c ++ sep ++ d ++ sep ++ e ++ sep ++ f := by
  show a ++ sep ++ (b ++ sep ++ (c ++ sep ++ (d ++ sep ++ (e ++ sep ++ f)))) = _
  simp [String.append_assoc]

theorem goMapGet_eq_empty_of_absent (headers : List (String × String)) (k : String)
    (h : ∀ kv ∈ headers, kv.1 ≠ k) : goMapGet headers k = "" := by
  unfold goMapGet
  have hf : headers.find? (fun p => p.1 = k) = none := by
    rw [List.find?_eq_none]
    intro x hx
    simpa using h x hx
  rw [hf]

theorem blobQueueStringToSign_eq (s : blobQueueSigner) (verb : String)
    (headers : List (String × String)) (u : GoURL) (cRes : String)
    (h : s.base.canonicalResource u = .ok cRes) :
    s.canonicalizedString verb headers u =
      .ok (verb ++ "\n" ++ goMapGet headers ("Content-MD5") ++ "\n" ++
        goMapGet headers ("Content-Type") ++ "\n" ++ goMapGet headers ("Date") ++ "\n" ++
        s.base.canonicalHeader headers ++ "\n" ++ cRes) := by
  unfold blobQueueSigner.canonicalizedString
  rw [h]
  exact congrArg Except.ok (joinSep_six ("\n") verb (goMapGet headers ("Content-MD5"))
    (goMapGet headers ("Content-Type")) (goMapGet headers ("Date"))
    (s.base.canonicalHeader headers) cRes)

theorem tableStringToSign_eq (s : tableSigner) (verb : String)
    (headers : List (String × String)) (u : GoURL) (cRes : String)
    (h : s.base.canonicalResource u = .ok cRes) :
    s.canonicalizedString verb headers u =
      .ok (goMapGet headers ("x-ms-date") ++ "\n" ++ cRes) := by
  unfold tableSigner.canonicalizedString
  rw [h]
  exact congrArg Except.ok (joinSep_pair ("\n") (goMapGet headers ("x-ms-date")) cRes)

/-- C4: for every verb, header map, and resource URL whose resource
canonicalization succeeds, the blob/queue string-to-sign is the six
newline-separated fields `VERB`, `Content-MD5`, `Content-Type`, `Date`,
canonical header block, canonical resource, in that fixed order; a header
missing from the map contributes the empty string, i.e. an empty line rather
than an omitted line. -/
theorem claim_C4_blobQueueStringToSign (s : blobQueueSigner) (verb : String)
    (headers : List (String × String)) (u : GoURL) (cRes : String)
    (h : s.base.canonicalResource u = .ok cRes) :
    s.canonicalizedString verb headers u =
      .ok (verb ++ "\n" ++ goMapGet headers ("Content-MD5") ++ "\n" ++
        goMapGet headers ("Content-Type") ++ "\n" ++ goMapGet headers ("Date") ++ "\n" ++
        s.base.canonicalHeader headers ++ "\n" ++ cRes) ∧
    (∀ k, (∀ kv ∈ headers, kv.1 ≠ k) → goMapGet headers k = "") := by
  constructor
  · exact blobQueueStringToSign_eq s verb headers u cRes h
  · intro k hk
    exact goMapGet_eq_empty_of_absent headers k hk

/-- C4, witness: the six-field equation at a concrete request with no
`Content-MD5` header; its line is empty. -/
theorem claim_C4_witness :
    blobQueueSigner.canonicalizedString ⟨⟨"foo"⟩⟩ ("GET")
        [("Content-Type", "text/plain"), ("x-ms-a", "1")] ⟨"/cnt/blob", ""⟩ =
      .ok ("GET" ++ "\n" ++ "" ++ "\n" ++ "text/plain" ++ "\n" ++ "" ++ "\n" ++
        ("x-ms-a:1") ++ "\n" ++ "/foo/cnt/blob") := by
  have h := claim_C4_blobQueueStringToSign ⟨⟨"foo"⟩⟩ ("GET")
    [("Content-Type", "text/plain"), ("x-ms-a", "1")] ⟨"/cnt/blob", ""⟩
    ("/foo/cnt/blob") (by rfl)
  have hmd5 : goMapGet [("Content-Type", "text/plain"), ("x-ms-a", "1")] ("Content-MD5") = "" :=
    h.2 ("Content-MD5") (by decide)
  have hdate : goMapGet [("Content-Type", "text/plain"), ("x-ms-a", "1")] ("Date") = "" :=
    h.2 ("Date") (by decide)
  have h1 := h.1
  rw [hmd5, hdate] at h1
  rw [h1]
  have hct : goMapGet [("Content-Type", "text/plain"), ("x-ms-a", "1")] ("Content-Type") =
      "text/plain" := rfl
  have hch : baseSigner.canonicalHeader ⟨"foo"⟩
      [("Content-Type", "text/plain"), ("x-ms-a", "1")] = "x-ms-a:1" := rfl
  rw [hct, hch]

/-- C5: for every header map and resource URL whose resource canonicalization
succeeds, the table string-to-sign is exactly the `x-ms-date` header value,
one newline, and the canonical resource; it depends on nothing else — any
verb and any header map agreeing on `x-ms-date` produce the same
string-to-sign, so the verb, the content headers, and the `x-ms-*` canonical
header block are not included. -/
theorem claim_C5_tableStringToSign (s : tableSigner) (verb : String)
    (headers : List (String × String)) (u : GoURL) (cRes : String)
    (h : s.base.canonicalResource u = .ok cRes) :
    s.canonicalizedString verb headers u =
      .ok (goMapGet headers ("x-ms-date") ++ "\n" ++ cRes) ∧
    (∀ (verb2 : String) (headers2 : List (String × String)),
      goMapGet headers2 ("x-ms-date") = goMapGet headers ("x-ms-date") →
      s.canonicalizedString verb2 headers2 u = s.canonicalizedString verb headers u) := by
  constructor
  · exact tableStringToSign_eq s verb headers u cRes h
  · intro verb2 headers2 hsame
    unfold tableSigner.canonicalizedString
    rw [h, hsame]

/-- C5, witness: the two-line equation at the request of the Go unit-test
URL, with an unrelated header map carrying `x-ms-date` and content headers;
a differently-tagged verb and header map give the identical result. -/
theorem claim_C5_witness :
    tableSigner.canonicalizedString ⟨⟨"foo"⟩⟩ ("POST")
        [("x-ms-date", "Mon, 02 Jan 2006"), ("Content-Type", "application/json")]
        ⟨"/Tables", ""⟩ =
      .ok ("Mon, 02 Jan 2006" ++ "\n" ++ "/foo/Tables") ∧
    tableSigner.canonicalizedString ⟨⟨"foo"⟩⟩ ("GET")
        [("x-ms-date", "Mon, 02 Jan 2006")] ⟨"/Tables", ""⟩ =
      tableSigner.canonicalizedString ⟨⟨"foo"⟩⟩ ("POST")
        [("x-ms-date", "Mon, 02 Jan 2006"), ("Content-Type", "application/json")]
        ⟨"/Tables", ""⟩ := by
  have h := claim_C5_tableStringToSign ⟨⟨"foo"⟩⟩ ("POST")
    [("x-ms-date", "Mon, 02 Jan 2006"), ("Content-Type", "application/json")]
    ⟨"/Tables", ""⟩ ("/foo/Tables") (by rfl)
  refine ⟨?_, ?_⟩
  · have h1 := h.1
    rw [h1]
    rfl
  · exact h.2 ("GET") [("x-ms-date", "Mon, 02 Jan 2006")] (by rfl)

/-! ### Claim C9 -/

/-- C9: for every structured-variant input whose wrapped value is absent
(nil) or is not a struct, `jsonMarshal` returns an error and produces no
bytes (the function is total, so it cannot panic). -/
theorem claim_C9_invalid_struct_entity (e : StructTableEntity)
    (h : e.val = none ∨ e.val = some .goOther) :
    ∃ msg, StructTableEntity.jsonMarshal e = .error msg := by
  obtain ⟨val⟩ := e
  rcases h with h | h <;> simp only at h <;> subst h <;> exact ⟨_, rfl⟩

/-- C9, witness: the theorem applied to the nil input and to a non-struct
input. -/
theorem claim_C9_witness :
    (∃ msg, StructTableEntity.jsonMarshal ⟨none⟩ = .error msg) ∧
    (∃ msg, StructTableEntity.jsonMarshal ⟨some .goOther⟩ = .error msg) :=
  ⟨claim_C9_invalid_struct_entity ⟨none⟩ (Or.inl rfl),
   claim_C9_invalid_struct_entity ⟨some .goOther⟩ (Or.inr rfl)⟩

/-! ### Claim C10 -/

/-- C10: both string-to-sign builders fetch the individual header values by
exact, case-sensitive map lookup.  If the header map holds none of the exact
keys `x-ms-date` (table) or `Content-MD5`/`Content-Type`/`Date` (blob/queue)
— for example because they are present only under differently-cased names —
the corresponding lines of the string-to-sign are empty; in contrast the
canonical header block matches header names case-insensitively, so a header
named with any casing of `x-ms-date` still appears there. -/
theorem claim_C10_case_sensitive_lookup (verb : String)
    (headers : List (String × String)) (u : GoURL) (cRes : String) :
    (∀ (st : tableSigner), st.base.canonicalResource u = .ok cRes →
      (∀ kv ∈ headers, kv.1 ≠ "x-ms-date") →
      st.canonicalizedString verb headers u = .ok ("" ++ "\n" ++ cRes)) ∧
    (∀ (sb : blobQueueSigner), sb.base.canonicalResource u = .ok cRes →
      (∀ kv ∈ headers, kv.1 ≠ "Content-MD5" ∧ kv.1 ≠ "Content-Type" ∧ kv.1 ≠ "Date") →
      sb.canonicalizedString verb headers u =
        .ok (verb ++ "\n" ++ "" ++ "\n" ++ "" ++ "\n" ++ "" ++ "\n" ++
          sb.base.canonicalHeader headers ++ "\n" ++ cRes)) ∧
    (∀ (b : baseSigner) (name d : String), goTrim (goToLower name) = "x-ms-date" →
      b.canonicalHeader [(name, d)] = "x-ms-date:" ++ d) := by
  refine ⟨?_, ?_, ?_⟩
  · intro st h habs
    have hdate : goMapGet headers ("x-ms-date") = "" :=
      goMapGet_eq_empty_of_absent headers _ habs
    have := tableStringToSign_eq st verb headers u cRes h
    rwa [hdate] at this
  · intro sb h habs
    have hmd5 : goMapGet headers ("Content-MD5") = "" :=
      goMapGet_eq_empty_of_absent headers _ (fun kv hkv => (habs kv hkv).1)
    have hct : goMapGet headers ("Content-Type") = "" :=
      goMapGet_eq_empty_of_absent headers _ (fun kv hkv => (habs kv hkv).2.1)
    have hdt : goMapGet headers ("Date") = "" :=
      goMapGet_eq_empty_of_absent headers _ (fun kv hkv => (habs kv hkv).2.2)
    have := blobQueueStringToSign_eq sb verb headers u cRes h
    rwa [hmd5, hct, hdt] at this
  · intro b name d hname
    have hcm : xmsHeaderMap [(name, d)] = [("x-ms-date", d)] := by
      unfold xmsHeaderMap
      rw [List.foldl_cons, List.foldl_nil]
      unfold xmsStep
      rw [hname]
      rfl
    rw [canonicalHeader_eq, hcm]
    rfl

/-- C10, witness: a map carrying the date header only as `X-Ms-Date` yields
an empty first line of the table string-to-sign, while the canonical header
block still lists it (case-insensitively) as `x-ms-date`. -/
theorem claim_C10_witness :
    tableSigner.canonicalizedString ⟨⟨"foo"⟩⟩ ("GET") [("X-Ms-Date", "D")] ⟨"/p", ""⟩ =
      .ok ("" ++ "\n" ++ "/foo/p") ∧
    baseSigner.canonicalHeader ⟨"foo"⟩ [("X-Ms-Date", "D")] = "x-ms-date:" ++ "D" :=
  ⟨(claim_C10_case_sensitive_lookup ("GET") [("X-Ms-Date", "D")] ⟨"/p", ""⟩ ("/foo/p")).1
      ⟨⟨"foo"⟩⟩ (by rfl) (by decide),
   (claim_C10_case_sensitive_lookup ("GET") [("X-Ms-Date", "D")] ⟨"/p", ""⟩ ("/foo/p")).2.2
      ⟨"foo"⟩ ("X-Ms-Date") ("D") (by decide)⟩

/-! ### Claim C7 -/

theorem mem_keys_iff_ne_none {α : Type} {m : List (String × α)} {k : String} :
    k ∈ m.map Prod.fst ↔ ¬ assocGet m k = none := by
  rw [assocGet_eq_none_iff]
  tauto

theorem isEmpty_iff_forall_none {α : Type} (m : List (String × α)) :
    m.isEmpty = true ↔ ∀ k, assocGet m k = none := by
  constructor
  · intro h k
    rw [List.isEmpty_iff] at h
    rw [h]
    rfl
  · intro h
    cases m with
    | nil => rfl
    | cons p rest =>
      exfalso
      have := h p.1
      unfold assocGet at this
      rw [List.find?_cons_of_pos _ (by simp)] at this
      simp at this

theorem lookupJVal_congr {m1 m2 : List (String × JVal)} (k : String)
    (h : assocGet m1 k = assocGet m2 k) : lookupJVal m1 k = lookupJVal m2 k := by
  unfold lookupJVal
  rw [h]

theorem goMarshalIndentMap_congr (m1 m2 : List (String × JVal))
    (h : ∀ k, assocGet m1 k = assocGet m2 k) :
    goMarshalIndentMap m1 = goMarshalIndentMap m2 := by
  have hkeys : sortStrs ((m1.map Prod.fst).dedup) = sortStrs ((m2.map Prod.fst).dedup) := by
    apply sortStrs_eq_of_mem_iff (List.nodup_dedup _) (List.nodup_dedup _)
    intro a
    rw [List.mem_dedup, List.mem_dedup, mem_keys_iff_ne_none, mem_keys_iff_ne_none, h a]
  have hemp : m1.isEmpty = m2.isEmpty := by
    cases h1 : m1.isEmpty <;> cases h2 : m2.isEmpty
    · rfl
    · exfalso
      have hall := (isEmpty_iff_forall_none m2).mp h2
      have : m1.isEmpty = true := (isEmpty_iff_forall_none m1).mpr (fun k => (h k).trans (hall k))
      rw [h1] at this
      exact Bool.noConfusion this
    · exfalso
      have hall := (isEmpty_iff_forall_none m1).mp h1
      have : m2.isEmpty = true :=
        (isEmpty_iff_forall_none m2).mpr (fun k => (h k).symm.trans (hall k))
      rw [h2] at this
      exact Bool.noConfusion this
    · rfl
  unfold goMarshalIndentMap
  rw [hemp, hkeys]
  cases h2 : m2.isEmpty
  · simp only [Bool.false_eq_true, if_false]
    congr 1
    congr 1
    apply congrArg (joinSep (",\n"))
    apply List.map_congr_left
    intro k _
    rw [lookupJVal_congr k (h k)]
  · simp

theorem assocGet_eq_of_perm {α : Type} {m1 m2 : List (String × α)}
    (hn : (m1.map Prod.fst).Nodup) (hp : m1.Perm m2) (k : String) :
    assocGet m1 k = assocGet m2 k := by
  have hn2 : (m2.map Prod.fst).Nodup := (hp.map Prod.fst).nodup hn
  cases hg : assocGet m1 k with
  | none =>
    have hk : k ∉ m1.map Prod.fst := assocGet_eq_none_iff.mp hg
    have hk2 : k ∉ m2.map Prod.fst := fun hc => hk ((hp.map Prod.fst).mem_iff.mpr hc)
    rw [assocGet_eq_none_iff.mpr hk2]
  | some v =>
    have hmem : (k, v) ∈ m2 := hp.mem_iff.mp (assocGet_mem hg)
    have := find?_of_nodup_keys hn2 hmem rfl
    unfold assocGet
    rw [this]
    unfold assocGet at hg
    rw [hg.symm]
    have hf := find?_of_nodup_keys hn (hp.mem_iff.mpr hmem) rfl
    rw [hf]

/-- C7: for every mapping-variant entity, serialization renders the map with
its keys in strictly ascending lexicographic order and 1-tab indentation;
the output depends only on the map's contents (any reordering of a
duplicate-free map serializes identically); and the unit-test entity
produces exactly the expected object with keys ordered `Address`, `Age`,
`Age@odata.type`, `PartitionKey`, `RowKey`. -/
theorem claim_C7_mapEntitySerialization (m : MapTableEntity) :
    MapTableEntity.jsonMarshal m = .ok (goMarshalIndentMap m) ∧
    List.Pairwise (fun a b => strLt a b = true)
      (sortStrs (((m : List (String × JVal)).map Prod.fst).dedup)) ∧
    (∀ m2 : MapTableEntity, ((m : List (String × JVal)).map Prod.fst).Nodup →
      (m : List (String × JVal)).Perm (m2 : List (String × JVal)) →
      MapTableEntity.jsonMarshal m = MapTableEntity.jsonMarshal m2) ∧
    MapTableEntity.jsonMarshal
        [("PartitionKey", .jstr ("mypartitionkey")), ("RowKey", .jstr ("myrowkey")),
         ("Address", .jstr ("Mountain View")), ("Age@odata.type", .jstr ("Edm.Int64")),
         ("Age", .jstr ("255"))] =
      .ok ("\x7b\n\t\"Address\": \"Mountain View\",\n\t\"Age\": \"255\",\n\t\"Age@odata.type\": \"Edm.Int64\",\n\t\"PartitionKey\": \"mypartitionkey\",\n\t\"RowKey\": \"myrowkey\"\n\x7d") := by
  refine ⟨rfl, sortStrs_pairwise_lt (List.nodup_dedup _), ?_, by rfl⟩
  intro m2 hn hp
  unfold MapTableEntity.jsonMarshal
  exact congrArg Except.ok (goMarshalIndentMap_congr _ _ (assocGet_eq_of_perm hn hp))

/-- C7, witness: the theorem's order-independence conjunct applied to the
unit-test entity and a rotation of it. -/
theorem claim_C7_witness :
    MapTableEntity.jsonMarshal
        [("PartitionKey", .jstr ("mypartitionkey")), ("RowKey", .jstr ("myrowkey")),
         ("Address", .jstr ("Mountain View"))] =
      MapTableEntity.jsonMarshal
        [("Address", .jstr ("Mountain View")), ("PartitionKey", .jstr ("mypartitionkey")),
         ("RowKey", .jstr ("myrowkey"))] :=
  (claim_C7_mapEntitySerialization
      [("PartitionKey", .jstr ("mypartitionkey")), ("RowKey", .jstr ("myrowkey")),
       ("Address", .jstr ("Mountain View"))]).2.2.1
    [("Address", .jstr ("Mountain View")), ("PartitionKey", .jstr ("mypartitionkey")),
     ("RowKey", .jstr ("myrowkey"))]
    (by decide) (by decide)

/-! ### Claim C6 -/

theorem strAppend_cancel_right {a b c : String} (h : a ++ c = b ++ c) : a = b := by
  apply String.ext
  have hd : a.data ++ c.data = b.data ++ c.data := by
    rw [← String.data_append, ← String.data_append, h]
  exact List.append_cancel_right hd

theorem entityExtras_eq_foldl (fields : List GoStructField) :
    entityExtras fields = (sidecarPairs fields).foldl (fun m p => assocSet m p.1 p.2) [] := by
  unfold entityExtras sidecarPairs
  generalize ([] : List (String × JVal)) = init
  induction fields generalizing init with
  | nil => rfl
  | cons f fields ih =>
    rw [List.foldl_cons, List.filterMap_cons]
    by_cases htag : f.odataTag ≠ ""
    · rw [if_pos htag, if_pos htag, List.foldl_cons]
      exact ih _
    · rw [if_neg htag, if_neg htag]
      exact ih _

theorem find?_key_of_unique {α : Type} (l : List (String × α)) (k : String) (v : α)
    (hex : (k, v) ∈ l) (huni : ∀ p ∈ l, p.1 = k → p = (k, v)) :
    l.find? (fun p => p.1 = k) = some (k, v) := by
  induction l with
  | nil => cases hex
  | cons q rest ih =>
    by_cases hq : q.1 = k
    · rw [List.find?_cons_of_pos _ (by simp [hq])]
      rw [huni q (List.mem_cons_self _ _) hq]
    · rw [List.find?_cons_of_neg _ (by simp [hq])]
      rcases List.mem_cons.mp hex with he | he
      · exfalso
        apply hq
        rw [← he]
      · exact ih he (fun p hp hpk => huni p (List.mem_cons_of_mem _ hp) hpk)

theorem mem_sidecarPairs {fields : List GoStructField} {f : GoStructField}
    (hf : f ∈ fields) (htag : f.odataTag ≠ "") :
    (jsonName f ++ ("@odata.type"), JVal.jstr f.odataTag) ∈ sidecarPairs fields := by
  unfold sidecarPairs
  apply List.mem_filterMap.mpr
  exact ⟨f, hf, by simp [htag]⟩

theorem sidecarPairs_unique {fields : List GoStructField} {f : GoStructField}
    (_hf : f ∈ fields) (_htag : f.odataTag ≠ "")
    (huniq : ∀ g ∈ fields, g.odataTag ≠ "" → jsonName g = jsonName f → g = f) :
    ∀ p ∈ sidecarPairs fields, p.1 = jsonName f ++ ("@odata.type") →
      p = (jsonName f ++ ("@odata.type"), JVal.jstr f.odataTag) := by
  intro p hp hpk
  unfold sidecarPairs at hp
  rcases List.mem_filterMap.mp hp with ⟨g, hg, hgp⟩
  by_cases hgtag : g.odataTag ≠ ""
  · rw [if_pos hgtag] at hgp
    have hk : jsonName g ++ ("@odata.type") = jsonName f ++ ("@odata.type") := by
      rw [← Option.some_inj.mp hgp] at hpk
      exact hpk
    have hname : jsonName g = jsonName f := strAppend_cancel_right hk
    have hgf : g = f := huniq g hg hgtag hname
    rw [← Option.some_inj.mp hgp, hgf]
  · rw [if_neg hgtag] at hgp
    exact Option.noConfusion hgp

theorem assocGet_mergedEntityMap_sidecar {fields : List GoStructField} {f : GoStructField}
    (hf : f ∈ fields) (htag : f.odataTag ≠ "")
    (huniq : ∀ g ∈ fields, g.odataTag ≠ "" → jsonName g = jsonName f → g = f) :
    assocGet (mergedEntityMap fields) (jsonName f ++ ("@odata.type")) =
      some (.jstr f.odataTag) := by
  have hm0 : ((entityM0 fields).map Prod.fst).Nodup := by
    unfold entityM0
    exact nodup_keys_foldl_assocSet _ _ (by simp)
  have hexnodup : ((entityExtras fields).map Prod.fst).Nodup := by
    rw [entityExtras_eq_foldl]
    exact nodup_keys_foldl_assocSet _ _ (by simp)
  have hgetex : assocGet (entityExtras fields) (jsonName f ++ ("@odata.type")) =
      some (.jstr f.odataTag) := by
    rw [entityExtras_eq_foldl]
    rw [assocGet_foldl_assocSet _ _ (by simp)]
    have hfind : (sidecarPairs fields).reverse.find?
        (fun p => p.1 = jsonName f ++ ("@odata.type")) =
        some (jsonName f ++ ("@odata.type"), JVal.jstr f.odataTag) := by
      apply find?_key_of_unique
      · rw [List.mem_reverse]
        exact mem_sidecarPairs hf htag
      · intro p hp hpk
        exact sidecarPairs_unique hf htag huniq p (List.mem_reverse.mp hp) hpk
    rw [hfind]
  have hmem : (jsonName f ++ ("@odata.type"), JVal.jstr f.odataTag) ∈ entityExtras fields :=
    assocGet_mem hgetex
  have hrevnodup : ((entityExtras fields).reverse.map Prod.fst).Nodup := by
    rw [List.map_reverse]
    exact List.nodup_reverse.mpr hexnodup
  have hfindrev : (entityExtras fields).reverse.find?
      (fun p => p.1 = jsonName f ++ ("@odata.type")) =
      some (jsonName f ++ ("@odata.type"), JVal.jstr f.odataTag) :=
    find?_of_nodup_keys hrevnodup (List.mem_reverse.mpr hmem) rfl
  unfold mergedEntityMap
  rw [assocGet_foldl_assocSet _ _ hm0]
  rw [hfindrev]

/-- C6, counterexample: two fields resolving to the same serialized name
`B`, both carrying an `odata.type` annotation.  The sidecar map key
`B@odata.type` is written once per field, so the later field's annotation
`T2` overwrites the earlier field's `T1`; the produced JSON cannot carry both
values, and for the first field the claim fails. -/
theorem claim_C6_counterexample :
    (⟨"A", "B", "T1", .jstr ("x")⟩ : GoStructField) ∈
      [(⟨"A", "B", "T1", .jstr ("x")⟩ : GoStructField), ⟨"B", "", "T2", .jstr ("y")⟩] ∧
    jsonName ⟨"A", "B", "T1", .jstr ("x")⟩ = "B" ∧
    assocGet (mergedEntityMap
        [⟨"A", "B", "T1", .jstr ("x")⟩, ⟨"B", "", "T2", .jstr ("y")⟩])
      ("B@odata.type") = some (.jstr ("T2")) ∧
    StructTableEntity.jsonMarshal
        ⟨some (.goStruct [⟨"A", "B", "T1", .jstr ("x")⟩, ⟨"B", "", "T2", .jstr ("y")⟩])⟩ =
      .ok ("\x7b\n\t\"B\": \"x\",\n\t\"B@odata.type\": \"T2\"\n\x7d") := by
  refine ⟨by decide, rfl, rfl, rfl⟩

/-- C6 (amended): for every struct accepted by the structured-variant
serializer and every field `f` carrying an `odata.type` annotation such that
no other annotated field resolves to the same serialized name, the final
entity map binds the sidecar key `jsonName(f) + "@odata.type"` to exactly the
annotation value; the serializer's output is that map rendered with sorted
keys and 1-tab indentation, and the sidecar key appears in the emitted,
strictly ascending key list. -/
theorem claim_C6_structSidecar (fields : List GoStructField) (f : GoStructField)
    (hf : f ∈ fields) (htag : f.odataTag ≠ "")
    (huniq : ∀ g ∈ fields, g.odataTag ≠ "" → jsonName g = jsonName f → g = f) :
    assocGet (mergedEntityMap fields) (jsonName f ++ ("@odata.type")) =
      some (.jstr f.odataTag) ∧
    StructTableEntity.jsonMarshal ⟨some (.goStruct fields)⟩ =
      .ok (goMarshalIndentMap (mergedEntityMap fields)) ∧
    List.Pairwise (fun a b => strLt a b = true)
      (sortStrs (((mergedEntityMap fields).map Prod.fst).dedup)) ∧
    (jsonName f ++ ("@odata.type")) ∈
      sortStrs (((mergedEntityMap fields).map Prod.fst).dedup) := by
  have hget := assocGet_mergedEntityMap_sidecar hf htag huniq
  refine ⟨hget, rfl, sortStrs_pairwise_lt (List.nodup_dedup _), ?_⟩
  rw [mem_sortStrs, List.mem_dedup, mem_keys_iff_ne_none, hget]
  simp

/-- C6, witness: the amended theorem applied to the struct of the Go unit
test, at its field `GUIDVal` (serialized name `guidVal`, annotation
`Edm.Guid`); evaluating the serializer there reproduces the test's expected
output byte for byte. -/
theorem claim_C6_witness :
    assocGet (mergedEntityMap
        [⟨"PartitionKey", "", "", .jstr ("pk")⟩, ⟨"RowKey", "", "", .jstr ("rk")⟩,
         ⟨"Name", "name", "", .jstr ("foo")⟩, ⟨"FieldWithDefaultName", "", "", .jint 1⟩,
         ⟨"GUIDVal", "guidVal", "Edm.Guid", .jstr ("000-000")⟩,
         ⟨"FieldWithOnlyODataTag", "", "Edm.Int64", .jint 2⟩])
      ("guidVal" ++ ("@odata.type")) = some (.jstr ("Edm.Guid")) ∧
    StructTableEntity.jsonMarshal
        ⟨some (.goStruct
          [⟨"PartitionKey", "", "", .jstr ("pk")⟩, ⟨"RowKey", "", "", .jstr ("rk")⟩,
           ⟨"Name", "name", "", .jstr ("foo")⟩, ⟨"FieldWithDefaultName", "", "", .jint 1⟩,
           ⟨"GUIDVal", "guidVal", "Edm.Guid", .jstr ("000-000")⟩,
           ⟨"FieldWithOnlyODataTag", "", "Edm.Int64", .jint 2⟩])⟩ =
      .ok ("\x7b\n\t\"FieldWithDefaultName\": 1,\n\t\"FieldWithOnlyODataTag\": 2,\n\t\"FieldWithOnlyODataTag@odata.type\": \"Edm.Int64\",\n\t\"PartitionKey\": \"pk\",\n\t\"RowKey\": \"rk\",\n\t\"guidVal\": \"000-000\",\n\t\"guidVal@odata.type\": \"Edm.Guid\",\n\t\"name\": \"foo\"\n\x7d") := by
  constructor
  · exact (claim_C6_structSidecar _ ⟨"GUIDVal", "guidVal", "Edm.Guid", .jstr ("000-000")⟩
      (by decide) (by decide) (by decide)).1
  · rfl

/-! ### Claim C8 -/

/-- C8: each error decoder returns a structured error whose `code`/`lang`/
`value` (JSON) or schema fields (XML) are parsed from the body, with the
given HTTP status code and request id attached out-of-band (they are never
read from the body); when the body does not parse, each decoder returns a
deserialization error whose message wraps the raw body; and decoding an
`odata.error` body with code `ResourceNotFound` and lang `en-US` at status
404 yields exactly those fields with statusCode 404. -/
theorem claim_C8_errorDecoders :
    (∀ (body : String) (st : Int) (rid : String) (e : AzureStorageTableServiceError),
      tableErrFromJSON body st rid = .ok e →
        e.statusCode = st ∧ e.requestID = rid ∧
        ∃ j c l v, parseJson body = some j ∧ decodeTableErr j = some (c, l, v) ∧
          e = ⟨c, l, v, st, rid⟩) ∧
    (∀ (body : String) (st : Int) (rid : String),
      (parseJson body = none ∨ ∃ j, parseJson body = some j ∧ decodeTableErr j = none) →
      tableErrFromJSON body st rid = .error (deserializeErrMsg body)) ∧
    (∀ (body : String) (st : Int) (rid : String) (e : AzureStorageServiceError),
      serviceErrFromXML body st rid = .ok e →
        e.statusCode = st ∧ e.requestID = rid ∧
        ∃ x, parseXml body = some x ∧
          e = { decodeServiceErrXml x with statusCode := st, requestID := rid }) ∧
    (∀ (body : String) (st : Int) (rid : String),
      parseXml body = none →
      serviceErrFromXML body st rid = .error (deserializeErrMsg body)) ∧
    (∀ body : String, deserializeErrMsg body =
      ("storage: error deserializing error" ++ "\nbody=") ++ goQuote body) ∧
    tableErrFromJSON
        ("\x7b\"odata.error\":\x7b\"code\":\"ResourceNotFound\",\"message\":\x7b\"lang\":\"en-US\",\"value\":\"nope\"\x7d\x7d\x7d")
        404 ("rid") =
      .ok ⟨"ResourceNotFound", "en-US", "nope", 404, "rid"⟩ := by
  refine ⟨?_, ?_, ?_, ?_, fun body => rfl, by rfl⟩
  · intro body st rid e h
    unfold tableErrFromJSON at h
    cases hj : parseJson body with
    | none =>
      rw [hj] at h
      exact Except.noConfusion h
    | some j =>
      rw [hj] at h
      replace h : (match decodeTableErr j with
        | none => Except.error (deserializeErrMsg body)
        | some (c, l, v) =>
          Except.ok (⟨c, l, v, st, rid⟩ : AzureStorageTableServiceError)) =
          Except.ok e := h
      cases hd : decodeTableErr j with
      | none =>
        rw [hd] at h
        exact Except.noConfusion h
      | some t =>
        rw [hd] at h
        obtain ⟨c, l, v⟩ := t
        injection h with h2
        subst h2
        exact ⟨rfl, rfl, j, c, l, v, rfl, hd, rfl⟩
  · intro body st rid h
    unfold tableErrFromJSON
    rcases h with h | ⟨j, hj, hd⟩
    · rw [h]
    · rw [hj]
      show (match decodeTableErr j with
        | none => Except.error (deserializeErrMsg body)
        | some (c, l, v) =>
          Except.ok (⟨c, l, v, st, rid⟩ : AzureStorageTableServiceError)) =
          Except.error (deserializeErrMsg body)
      rw [hd]
  · intro body st rid e h
    unfold serviceErrFromXML at h
    cases hx : parseXml body with
    | none =>
      rw [hx] at h
      exact Except.noConfusion h
    | some x =>
      rw [hx] at h
      replace h : Except.ok
          { decodeServiceErrXml x with statusCode := st, requestID := rid } =
          Except.ok e := h
      injection h with h2
      subst h2
      exact ⟨rfl, rfl, x, rfl, rfl⟩
  · intro body st rid h
    unfold serviceErrFromXML
    rw [h]

set_option maxRecDepth 4000 in
/-- C8, witness: the decoder conjuncts applied at concrete inputs — the
`ResourceNotFound` body at status 404, and a non-XML body for the failure
path. -/
theorem claim_C8_witness :
    (∃ j c l v,
      parseJson
          ("\x7b\"odata.error\":\x7b\"code\":\"ResourceNotFound\",\"message\":\x7b\"lang\":\"en-US\",\"value\":\"nope\"\x7d\x7d\x7d") =
        some j ∧
      decodeTableErr j = some (c, l, v) ∧
      (⟨"ResourceNotFound", "en-US", "nope", 404, "rid"⟩ : AzureStorageTableServiceError) =
        ⟨c, l, v, 404, "rid"⟩) ∧
    serviceErrFromXML ("not xml") 400 ("r") = .error (deserializeErrMsg ("not xml")) :=
  ⟨(claim_C8_errorDecoders.1
      ("\x7b\"odata.error\":\x7b\"code\":\"ResourceNotFound\",\"message\":\x7b\"lang\":\"en-US\",\"value\":\"nope\"\x7d\x7d\x7d")
      404 ("rid") ⟨"ResourceNotFound", "en-US", "nope", 404, "rid"⟩ (by rfl)).2.2,
   claim_C8_errorDecoders.2.2.2.1 ("not xml") 400 ("r") (by rfl)⟩
